import Mathlib

/-! Verification development for the OpenAPI-to-raw-HTTP request generator
(`openapi_to_repeater.py`). Python strings are modelled as lists of
characters, JSON values as the inductive type `JVal`, Python dicts as
insertion-ordered association lists, and Python exceptions as the error
side of `Except`. Recursion that is unbounded in Python (schema sampling
through `$ref`) takes an explicit fuel argument modelling the call stack;
running out of fuel is reported as an error, never silently converted
into a value. -/

namespace OTR

/-- Python strings are modelled as lists of characters. -/
abbrev Str := List Char

/-- Character list of a Lean string literal. -/
def ofString (s : String) : Str := s.data

/-- Python whitespace for str.strip: space, tab, LF, CR, vertical tab, form feed. -/
def isPySpace (c : Char) : Bool :=
  c == ' ' || c == '\t' || c == '\n' || c == '\r' || c == Char.ofNat 11 || c == Char.ofNat 12

/-- s.strip() -/
def pyStrip (s : Str) : Str := ((s.dropWhile isPySpace).reverse.dropWhile isPySpace).reverse

/-- s.lower() (ASCII letters; the repository only compares ASCII header names). -/
def pyLower (s : Str) : Str := s.map Char.toLower

/-- s.upper() (ASCII letters; applied to the fixed lowercase HTTP method names). -/
def pyUpper (s : Str) : Str := s.map Char.toUpper

/-- s.startswith(pat): `strStarts pat s` is true iff pat is a leading segment of s. -/
def strStarts : Str → Str → Bool
  | [], _ => true
  | _ :: _, [] => false
  | p :: ps, c :: cs => if p = c then strStarts ps cs else false

/-- s.endswith(pat). -/
def strEnds (pat s : Str) : Bool := strStarts pat.reverse s.reverse

/-- pat in s (substring test on strings). -/
def substr (pat s : Str) : Bool := s.tails.any (fun t => strStarts pat t)

/-- s.split(sep) for a one-character separator. -/
def splitChar (sep : Char) : Str → List Str
  | [] => [[]]
  | c :: rest =>
    match splitChar sep rest with
    | [] => [[]]
    | cur :: rs => if c = sep then [] :: cur :: rs else (c :: cur) :: rs

/-- s.split(sep, 1) for a one-character separator: none when sep does not occur in s,
    otherwise the pieces before and after the first occurrence. -/
def splitFirst (sep : Char) : Str → Option (Str × Str)
  | [] => none
  | c :: rest =>
    if c = sep then some ([], rest)
    else (splitFirst sep rest).map (fun p => (c :: p.1, p.2))

/-- Prepend a character onto the first piece of a split result. -/
def consHead (c : Char) : List Str → List Str
  | [] => [[c]]
  | l :: ls => (c :: l) :: ls

/-- s.splitlines(): split on LF, CR and CRLF, with no trailing empty line. -/
def splitlines : Str → List Str
  | [] => []
  | '\r' :: '\n' :: rest => [] :: splitlines rest
  | '\r' :: rest => [] :: splitlines rest
  | '\n' :: rest => [] :: splitlines rest
  | c :: rest => consHead c (splitlines rest)

/-- Fuel-driven worker for s.replace(pat, rep); with fuel ≥ s.length it performs
    Python's left-to-right non-overlapping replacement of a non-empty pattern. -/
def strReplaceGo (pat rep : Str) : Nat → Str → Str
  | 0, s => s
  | Nat.succ _, [] => []
  | Nat.succ n, c :: rest =>
    if pat ≠ [] ∧ strStarts pat (c :: rest) = true then
      rep ++ strReplaceGo pat rep n ((c :: rest).drop pat.length)
    else c :: strReplaceGo pat rep n rest

/-- s.replace(pat, rep) for a non-empty pattern. -/
def strReplace (pat rep s : Str) : Str := strReplaceGo pat rep s.length s

/-- s.replace("\r\n", "\n"): left-to-right single pass collapsing each CRLF pair. -/
def crlfToLf : Str → Str
  | '\r' :: '\n' :: rest => '\n' :: crlfToLf rest
  | c :: rest => c :: crlfToLf rest
  | [] => []

/-- s.replace("\r", "\n"). -/
def crToLf : Str → Str
  | '\r' :: rest => '\n' :: crToLf rest
  | c :: rest => c :: crToLf rest
  | [] => []

/-- s.replace("\n", "\r\n"). -/
def lfToCrlf : Str → Str
  | '\n' :: rest => '\r' :: '\n' :: lfToCrlf rest
  | c :: rest => c :: lfToCrlf rest
  | [] => []

/-- The CRLF pair. -/
def crlf : Str := ['\r', '\n']

/-- normalize_crlf (source lines 136-147): collapse CRLF and lone CR to LF, convert
    every LF to CRLF, and append one final CRLF when the result does not already end
    with CRLF. -/
def normalize_crlf (s : Str) : Str :=
  let s1 := crlfToLf s
  let s2 := crToLf s1
  let s3 := lfToCrlf s2
  if strEnds crlf s3 then s3 else s3 ++ crlf

/-- Digits of a natural number, most significant first. -/
def natStr (n : Nat) : Str := Nat.toDigits 10 n

/-- str(i) for an integer. -/
def intStr (n : Int) : Str := if n < 0 then '-' :: natStr n.natAbs else natStr n.natAbs

/-- Value of a non-empty all-ASCII-digit string. -/
def digitsVal (cs : Str) : Option Nat :=
  if cs.isEmpty then none
  else if cs.all (fun c => c.isDigit) then
    some (cs.foldl (fun a c => a * 10 + (c.toNat - 48)) 0)
  else none

/-- int(s) for a Python 2 string: optional surrounding whitespace, an optional sign,
    then one or more ASCII digits; none when the parse fails (the callers catch the
    ValueError this corresponds to). -/
def pyInt (s : Str) : Option Int :=
  match pyStrip s with
  | '+' :: r => (digitsVal r).map (fun n => (n : Int))
  | '-' :: r => (digitsVal r).map (fun n => -(n : Int))
  | r => (digitsVal r).map (fun n => (n : Int))

/-- Lines 159-167 of parse_host_and_port: strip surrounding whitespace, strip a
    leading http:// or https:// scheme, and cut everything from the first '/'. -/
def cleanedHostField (host_field : Str) : Str :=
  let hf0 := pyStrip host_field
  let hf1 :=
    if strStarts (ofString ("http://")) hf0 then hf0.drop 7
    else if strStarts (ofString ("https://")) hf0 then hf0.drop 8
    else hf0
  if hf1.contains '/' then (splitChar '/' hf1).headD [] else hf1

/-- parse_host_and_port (source lines 150-181): clean the host field, then split it
    on the FIRST colon; a parsable explicit port wins, otherwise 443/80 by use_https. -/
def parse_host_and_port (host_field : Str) (use_https : Bool) : Str × Int :=
  let hf2 := cleanedHostField host_field
  match splitFirst ':' hf2 with
  | none => (hf2, if use_https then 443 else 80)
  | some p =>
    match pyInt p.2 with
    | some port => (p.1, port)
    | none => (p.1, if use_https then 443 else 80)

/-- Modelled from the spec: the spec's own description of parse_host_and_port says the
    remainder is split "on the last colon for an explicit port". This definition follows
    those words (everything else as in the source) and exists only to be compared with
    the source-faithful `parse_host_and_port`. -/
def parse_host_and_port_lastcolon (host_field : Str) (use_https : Bool) : Str × Int :=
  let hf2 := cleanedHostField host_field
  match splitFirst ':' hf2.reverse with
  | none => (hf2, if use_https then 443 else 80)
  | some p =>
    match pyInt p.1.reverse with
    | some port => (p.2.reverse, port)
    | none => (p.2.reverse, if use_https then 443 else 80)

/-- JSON values: the shape of the parsed OpenAPI document and of every schema node.
    Objects are insertion-ordered association lists (the repository relies on
    insertion-ordered mappings, see the design notes of the spec). JSON numbers are
    modelled as integers. -/
inductive JVal where
  | null : JVal
  | bool : Bool → JVal
  | int : Int → JVal
  | str : Str → JVal
  | arr : List JVal → JVal
  | obj : List (Str × JVal) → JVal

/-- Python exceptions that the modelled code can raise, plus fuel exhaustion standing
    for unbounded recursion (Python's RecursionError). -/
inductive PyErr where
  | typeErr : PyErr
  | attrErr : PyErr
  | fuelOut : PyErr
deriving DecidableEq

/-- Python truthiness of a JSON value. -/
def truthy : JVal → Bool
  | .null => false
  | .bool b => b
  | .int n => n != 0
  | .str s => !s.isEmpty
  | .arr xs => !xs.isEmpty
  | .obj kvs => !kvs.isEmpty

/-- Lookup in an association-list object (first binding wins; objects built by the
    model keep keys unique). -/
def alGet (kvs : List (Str × JVal)) (k : Str) : Option JVal :=
  match kvs with
  | [] => none
  | p :: rest => if p.1 = k then some p.2 else alGet rest k

/-- d.get(k, default) on an object's bindings. -/
def alGetD (kvs : List (Str × JVal)) (k : Str) (d : JVal) : JVal :=
  match alGet kvs k with
  | some v => v
  | none => d

/-- d[k] = v on a string-keyed dict: replace the value of an existing binding in
    place (the stored key object is kept, as in Python), else append. -/
def alSet {β : Type} (m : List (Str × β)) (k : Str) (v : β) : List (Str × β) :=
  match m with
  | [] => [(k, v)]
  | p :: rest => if p.1 = k then (p.1, v) :: rest else p :: alSet rest k v

/-- ref.lstrip("#/"): drop every leading '#' and '/' character. -/
def lstripRefChars (s : Str) : Str := s.dropWhile (fun c => c == '#' || c == '/')

/-- The $ref walk of simple_sample_from_schema (lines 50-56): follow each path
    segment while the node is a dict containing it; at the first failure the node
    becomes the empty dict and the walk stops. -/
def refWalkSample : List Str → JVal → JVal
  | [], node => node
  | p :: rest, node =>
    match node with
    | .obj kvs =>
      match alGet kvs p with
      | some v => refWalkSample rest v
      | none => .obj []
    | _ => .obj []

/-- key in xs for a Python list: equality of the key string with each element. -/
def strInList (key : Str) (xs : List JVal) : Bool :=
  xs.any (fun e => match e with | .str t => t == key | _ => false)

/-- t == w for a JSON value t and a Python string w: true only for an equal string. -/
def jeqStr (t : JVal) (w : Str) : Bool :=
  match t with
  | .str s => s == w
  | _ => false

/-- int(x) under the surrounding try/except that yields 1 on failure: integers pass
    through, booleans become 1/0, numeric strings parse, everything else gives 1. -/
def pyIntOf : JVal → Int
  | .int n => n
  | .bool b => if b then 1 else 0
  | .str s => (pyInt s).getD 1
  | _ => 1

/-- Lines 64-74 of the sampler: the effective type. `.error v` signals the early
    return of the enum branch (first element of a non-empty enum list, else the
    literal string "example"); `.ok t` is the type value the dispatch then compares. -/
def effectiveType (kvs : List (Str × JVal)) : Except JVal JVal :=
  let t0 := alGetD kvs (ofString ("type")) JVal.null
  if truthy t0 then .ok t0
  else if (alGet kvs (ofString ("properties"))).isSome then .ok (.str (ofString ("object")))
  else if (alGet kvs (ofString ("enum"))).isSome then
    .error (match alGetD kvs (ofString ("enum")) JVal.null with
      | .arr (e :: _) => e
      | _ => .str (ofString ("example")))
  else .ok (.str (ofString ("string")))

/-- Lines 76-86: the string branch of the sampler — fixed literal by format, else
    title, else name, else "example". Never raises. -/
def sampleString (kvs : List (Str × JVal)) : JVal :=
  let fmt := alGetD kvs (ofString ("format")) (JVal.str [])
  if jeqStr fmt (ofString ("date-time")) then .str (ofString ("2025-10-02T12:00:00Z"))
  else if jeqStr fmt (ofString ("date")) then .str (ofString ("2025-10-02"))
  else if jeqStr fmt (ofString ("email")) then .str (ofString ("user@example.com"))
  else if jeqStr fmt (ofString ("uuid")) then
    .str (ofString ("00000000-0000-0000-0000-000000000000"))
  else
    let t1 := alGetD kvs (ofString ("title")) JVal.null
    if truthy t1 then t1
    else
      let t2 := alGetD kvs (ofString ("name")) JVal.null
      if truthy t2 then t2 else .str (ofString ("example"))

/-- Lines 88-99: the integer/number branch — int(minimum) if present, else
    int(maximum), else 1; the try/except makes conversion failures into 1, so this
    branch never raises. -/
def sampleNumeric (kvs : List (Str × JVal)) : JVal :=
  match alGet kvs (ofString ("minimum")) with
  | some m => .int (pyIntOf m)
  | none =>
    match alGet kvs (ofString ("maximum")) with
    | some m => .int (pyIntOf m)
    | none => .int 1

/-- Lines 105 and 109: the sub-schema defaults — items defaults to a string schema,
    properties to the empty dict. -/
def defaultItems : JVal := JVal.obj [(ofString ("type"), JVal.str (ofString ("string")))]

/-- The errors the `in` / indexing / .get chain of lines 46-64 raises on a truthy
    non-dict schema node: a membership hit makes the indexing raise TypeError, a miss
    reaches .get which raises AttributeError; int/bool are not even iterable. -/
def nonDictError (schema : JVal) : PyErr :=
  match schema with
  | .str s =>
    if substr (ofString ("$ref")) s then .typeErr
    else if substr (ofString ("example")) s then .typeErr
    else if substr (ofString ("default")) s then .typeErr
    else .attrErr
  | .arr xs =>
    if strInList (ofString ("$ref")) xs then .typeErr
    else if strInList (ofString ("example")) xs then .typeErr
    else if strInList (ofString ("default")) xs then .typeErr
    else .attrErr
  | _ => .typeErr

/-- simple_sample_from_schema (source lines 43-115), with explicit fuel for the
    recursion. A falsy node samples to null; a dict is inspected for $ref, example,
    default and then sampled by its effective type; a truthy non-dict raises the
    Python error the source would raise at that node. -/
def simple_sample_from_schema (spec : JVal) : Nat → JVal → Except PyErr JVal
  | 0, _ => .error .fuelOut
  | Nat.succ fuel, schema =>
    if truthy schema = false then .ok .null
    else
      match schema with
      | .obj kvs =>
        match alGet kvs (ofString ("$ref")) with
        | some (.str ref) =>
          if strStarts (ofString ("#/")) ref then
            simple_sample_from_schema spec fuel
              (refWalkSample (splitChar '/' (lstripRefChars ref)) spec)
          else .ok (.str (ofString ("example")))
        | some _ => .error .attrErr
        | none =>
          match alGet kvs (ofString ("example")) with
          | some v => .ok v
          | none =>
            match alGet kvs (ofString ("default")) with
            | some v => .ok v
            | none =>
              match effectiveType kvs with
              | .error v => .ok v
              | .ok t =>
                if jeqStr t (ofString ("string")) then .ok (sampleString kvs)
                else if jeqStr t (ofString ("integer")) || jeqStr t (ofString ("number")) then
                  .ok (sampleNumeric kvs)
                else if jeqStr t (ofString ("boolean")) then .ok (.bool false)
                else if jeqStr t (ofString ("array")) then
                  (simple_sample_from_schema spec fuel
                    (alGetD kvs (ofString ("items")) defaultItems)).map (fun r => JVal.arr [r])
                else if jeqStr t (ofString ("object")) then
                  match alGetD kvs (ofString ("properties")) (JVal.obj []) with
                  | .obj pkvs =>
                    (pkvs.mapM (fun p =>
                      (simple_sample_from_schema spec fuel p.2).map (fun r => (p.1, r)))).map
                      JVal.obj
                  | _ => .error .attrErr
                else .ok (.str (ofString ("example")))
      | other => .error (nonDictError other)

/-- parse_extra_headers (source lines 118-133): per non-blank, non-'#' line, split on
    the first colon; both pieces stripped; lines with no colon or an empty name are
    skipped. -/
def parse_extra_headers (txt : Str) : List (Str × Str) :=
  (splitlines txt).foldl (fun hs raw =>
    let line := pyStrip raw
    if line.isEmpty then hs
    else if strStarts ['#'] line then hs
    else
      match splitFirst ':' line with
      | none => hs
      | some p =>
        let name := pyStrip p.1
        let value := pyStrip p.2
        if name.isEmpty then hs else alSet hs name value) []

/-- "\n".join(lines) / "&".join(pairs): Python string join. -/
def pyJoin (sep : Str) : List Str → Str
  | [] => []
  | [l] => l
  | l :: rest => l ++ sep ++ pyJoin sep rest

/-- Line 419: base.split("\n"). -/
def baseLines (base : Str) : List Str := splitChar '\n' base

/-- Line 420: the request line is the first line of the base. -/
def baseRequestLine (base : Str) : Str := (baseLines base).headD []

/-- Lines 421 and 427-432: the header lines of the base — the lines after the request
    line and before the first whitespace-only line. -/
def baseHeadersPart (base : Str) : List Str :=
  let rest := (baseLines base).tail
  match rest.findIdx? (fun l => (pyStrip l).isEmpty) with
  | none => rest
  | some i => rest.take i

/-- Lines 421 and 427-433: the body lines of the base — the lines after the first
    whitespace-only line; empty when there is none. -/
def baseBodyPart (base : Str) : List Str :=
  let rest := (baseLines base).tail
  match rest.findIdx? (fun l => (pyStrip l).isEmpty) with
  | none => []
  | some i => rest.drop (i + 1)

/-- Lines 436-440: parse header lines into a name-to-value map; a line with no colon
    is skipped, both pieces of a colon split are stripped. -/
def parseHeaderLines (ls : List Str) : List (Str × Str) :=
  ls.foldl (fun m h =>
    match splitFirst ':' h with
    | some kv => alSet m (pyStrip kv.1) (pyStrip kv.2)
    | none => m) []

/-- Lines 442-451: inject Authorization for a non-empty token, then overlay the extra
    headers, silently dropping any extra header whose name lowercases to host. -/
def mergedHeaders (base bearer_token : Str) (extra_headers : List (Str × Str)) :
    List (Str × Str) :=
  let existing0 := parseHeaderLines (baseHeadersPart base)
  let existing1 :=
    if bearer_token.isEmpty then existing0
    else alSet existing0 (ofString ("Authorization")) (ofString ("Bearer ") ++ bearer_token)
  extra_headers.foldl (fun m kv =>
    if pyLower kv.1 = ofString ("host") then m else alSet m kv.1 kv.2) existing1

/-- Lines 453-457: emit the merged headers as "Name: Value" lines, skipping any
    entry whose name lowercases to host. -/
def emittedHeaderLines (base bearer_token : Str) (extra_headers : List (Str × Str)) :
    List Str :=
  ((mergedHeaders base bearer_token extra_headers).filter
    (fun kv => pyLower kv.1 != ofString ("host"))).map
    (fun kv => kv.1 ++ ofString (": ") ++ kv.2)

/-- Lines 423-462: the output lines — request line, the injected Host line, the
    merged header lines, the blank separator, then the body lines. -/
def newLines (base host bearer_token : Str) (extra_headers : List (Str × Str)) :
    List Str :=
  baseRequestLine base :: (ofString ("Host: ") ++ host) ::
    emittedHeaderLines base bearer_token extra_headers ++ [[]] ++ baseBodyPart base

/-- _build_final_raw (source lines 418-467): split the base into request line,
    header lines (up to the first whitespace-only line) and body, parse the headers
    into a map, inject Authorization for a non-empty token, overlay the extra headers
    except any named host (case-insensitively), and emit request line, Host line,
    merged headers, a separator and the body, joined with LF and CRLF-normalized. -/
def build_final_raw (base host bearer_token : Str) (extra_headers : List (Str × Str)) : Str :=
  normalize_crlf (pyJoin ['\n'] (newLines base host bearer_token extra_headers))

/-- repr(v) in Python 2, fuel-driven: None/True/False, decimal integers, u-prefixed
    single-quoted strings, bracketed lists and braced dicts. The fuel models Python's
    recursion limit (default 1000): repr of a value nested deeper raises
    RecursionError. String escape sequences inside repr are not modelled; the
    repository never relies on them. -/
def pyReprGo : Nat → JVal → Str
  | 0, _ => []
  | Nat.succ n, v =>
    match v with
    | .null => ofString ("None")
    | .bool b => if b then ofString ("True") else ofString ("False")
    | .int i => intStr i
    | .str s => 'u' :: Char.ofNat 39 :: s ++ [Char.ofNat 39]
    | .arr xs =>
      '[' :: pyJoin (ofString (", ")) (xs.map (pyReprGo n)) ++ [']']
    | .obj kvs =>
      Char.ofNat 123 ::
        pyJoin (ofString (", "))
          (kvs.map (fun p => pyReprGo n (.str p.1) ++ ofString (": ") ++ pyReprGo n p.2)) ++
        [Char.ofNat 125]

/-- str(v) in Python 2: strings pass through unquoted, scalars print directly,
    containers print as their repr (at Python's default recursion limit). -/
def pyStr (v : JVal) : Str :=
  match v with
  | .str s => s
  | .null => ofString ("None")
  | .bool b => if b then ofString ("True") else ofString ("False")
  | .int i => intStr i
  | v => pyReprGo 1000 v

/-- JSON string escaping for json.dumps with ensure_ascii=False: quote, backslash and
    the ASCII control characters that have short escapes; other characters pass
    through (non-ASCII is left unescaped). -/
def jsonEscapeChar (c : Char) : Str :=
  if c = '"' then ['\\', '"']
  else if c = '\\' then ['\\', '\\']
  else if c = '\n' then ['\\', 'n']
  else if c = '\r' then ['\\', 'r']
  else if c = '\t' then ['\\', 't']
  else [c]

/-- json.dumps(v, indent=2, ensure_ascii=False), fuel-driven; level is the current
    nesting depth. -/
def jsonDumpsGo : Nat → Nat → JVal → Str
  | 0, _, _ => []
  | Nat.succ n, level, v =>
    let pad := fun (l : Nat) => List.replicate (2 * l) ' '
    match v with
    | .null => ofString ("null")
    | .bool b => if b then ofString ("true") else ofString ("false")
    | .int i => intStr i
    | .str s => '"' :: (s.map jsonEscapeChar).flatten ++ ['"']
    | .arr [] => ofString ("[]")
    | .arr xs =>
      '[' :: '\n' ::
        pyJoin (ofString (",\n"))
          (xs.map (fun x => pad (level + 1) ++ jsonDumpsGo n (level + 1) x)) ++
        '\n' :: pad level ++ [']']
    | .obj [] => Char.ofNat 123 :: [Char.ofNat 125]
    | .obj kvs =>
      Char.ofNat 123 :: '\n' ::
        pyJoin (ofString (",\n"))
          (kvs.map (fun p =>
            pad (level + 1) ++ '"' :: (p.1.map jsonEscapeChar).flatten ++
              ofString ("\": ") ++ jsonDumpsGo n (level + 1) p.2)) ++
        '\n' :: pad level ++ [Char.ofNat 125]

/-- json.dumps(v, indent=2, ensure_ascii=False), at Python's default recursion
    limit. -/
def jsonDumps (v : JVal) : Str := jsonDumpsGo 1000 0 v

/-- One uppercase hex digit, as produced by java.net.URLEncoder. -/
def hexDigit (n : Nat) : Char := (ofString ("0123456789ABCDEF")).getD n 'F'

/-- UTF-8 bytes of one character. -/
def utf8Bytes (c : Char) : List Nat :=
  let n := c.toNat
  if n < 128 then [n]
  else if n < 2048 then [192 + n / 64, 128 + n % 64]
  else if n < 65536 then [224 + n / 4096, 128 + (n / 64) % 64, 128 + n % 64]
  else [240 + n / 262144, 128 + (n / 4096) % 64, 128 + (n / 64) % 64, 128 + n % 64]

/-- java.net.URLEncoder leaves ASCII letters, digits and . - * _ unchanged. -/
def urlSafeChar (c : Char) : Bool :=
  ('a' ≤ c && c ≤ 'z') || ('A' ≤ c && c ≤ 'Z') || ('0' ≤ c && c ≤ '9') ||
  c == '.' || c == '-' || c == '*' || c == '_'

/-- java.net.URLEncoder.encode(s, "UTF-8"), modelled from its documented behavior
    (application/x-www-form-urlencoded): safe characters unchanged, the space
    character becomes '+', every other character becomes %XX escapes of its UTF-8
    bytes with uppercase hex digits. -/
def javaUrlEncode (s : Str) : Str :=
  (s.map (fun c =>
    if urlSafeChar c then [c]
    else if c = ' ' then ['+']
    else (utf8Bytes c).map (fun b => '%' :: [hexDigit (b / 16), hexDigit (b % 16)]) |>.flatten)).flatten

/-- _url_encode (source lines 401-406): java.net.URLEncoder is importable in the
    Burp/Jython environment, so the try-branch is what runs. -/
def url_encode (s : Str) : Str := javaUrlEncode s

/-- The except-branch of _url_encode, reachable only when java.net is unavailable:
    s.replace(" ", "%20"). -/
def url_encode_fallback (s : Str) : Str := strReplace [' '] (ofString ("%20")) s

/-- Python dict-key equality for the hashable JSON scalars, including the numeric
    cross-type equalities True == 1 and False == 0. -/
def pyKeyEq : JVal → JVal → Bool
  | .null, .null => true
  | .bool a, .bool b => a == b
  | .int a, .int b => a == b
  | .bool a, .int b => (if a then (1 : Int) else 0) == b
  | .int a, .bool b => a == (if b then (1 : Int) else 0)
  | .str a, .str b => a == b
  | _, _ => false

/-- Lists and dicts cannot be Python dict keys (TypeError: unhashable). -/
def hashableKey : JVal → Bool
  | .arr _ => false
  | .obj _ => false
  | _ => true

/-- d[k] = v on a JVal-keyed dict (the parameter maps keyed by parameter name). -/
def alSetJ (m : List (JVal × JVal)) (k v : JVal) : Except PyErr (List (JVal × JVal)) :=
  if hashableKey k then
    .ok (match m.find? (fun p => pyKeyEq p.1 k) with
      | some _ => m.map (fun p => if pyKeyEq p.1 k then (p.1, v) else p)
      | none => m ++ [(k, v)])
  else .error .typeErr

/-- p.get(k): None-defaulted lookup; AttributeError on a non-dict. -/
def pyGetE (p : JVal) (k : Str) : Except PyErr JVal :=
  match p with
  | .obj kvs => .ok (alGetD kvs k JVal.null)
  | _ => .error .attrErr

/-- p.get(k, d); AttributeError on a non-dict. -/
def pyGetDE (p : JVal) (k : Str) (d : JVal) : Except PyErr JVal :=
  match p with
  | .obj kvs => .ok (alGetD kvs k d)
  | _ => .error .attrErr

/-- The $ref walk of parse_and_generate (lines 307-311 and 338-343):
    node.get(part, {}) at every segment — unlike the sampler's walk this raises
    AttributeError when the walk reaches a non-dict, and it does not stop early. -/
def refWalkGen : List Str → JVal → Except PyErr JVal
  | [], node => .ok node
  | p :: rest, node =>
    match node with
    | .obj kvs => refWalkGen rest (alGetD kvs p (JVal.obj []))
    | _ => .error .attrErr

/-- Lines 304-313 (and identically 336-345): resolve a parameter or requestBody that
    is itself a $ref; a non-local ref degrades to the empty dict, a non-string ref
    raises AttributeError at ref.startswith. -/
def resolveParamRef (spec p : JVal) : Except PyErr JVal :=
  match p with
  | .obj kvs =>
    match alGet kvs (ofString ("$ref")) with
    | some (.str ref) =>
      if strStarts (ofString ("#/")) ref then
        refWalkGen (splitChar '/' (lstripRefChars ref)) spec
      else .ok (.obj [])
    | some _ => .error .attrErr
    | none => .ok p
  | _ => .ok p

/-- Line 316: `p.get("schema") or {}` — the parameter's schema, with a falsy value
    replaced by the empty dict. -/
def paramSchemaOf (kvs : List (Str × JVal)) : JVal :=
  let schemaRaw := alGetD kvs (ofString ("schema")) JVal.null
  if truthy schemaRaw then schemaRaw else JVal.obj []

/-- Lines 314-321: read name/in/schema/example off a (possibly $ref) parameter and
    compute its sample value: the literal example when `p.get("example")` is not
    None, else the schema sample (a falsy schema is replaced by the empty dict). -/
def paramStep (fuel : Nat) (spec p0 : JVal) : Except PyErr (JVal × JVal × JVal) := do
  let p ← resolveParamRef spec p0
  let name ← pyGetE p (ofString ("name"))
  let location ← pyGetE p (ofString ("in"))
  let schema ←
    match p with
    | .obj kvs => Except.ok (paramSchemaOf kvs)
    | _ => Except.error PyErr.attrErr
  let exampleV ← pyGetE p (ofString ("example"))
  let val ←
    match exampleV with
    | .null => simple_sample_from_schema spec fuel schema
    | e => Except.ok e
  .ok (name, location, val)

/-- The three per-operation maps keyed by a parameter's `in` value. -/
structure ParamMaps where
  path : List (JVal × JVal)
  query : List (JVal × JVal)
  header : List (JVal × JVal)

/-- Lines 303-327: process every parameter and route its sampled value into the
    path/query/header map selected by its `in`; other locations are dropped. -/
def routeParams (fuel : Nat) (spec : JVal) (ps : List JVal) : Except PyErr ParamMaps :=
  ps.foldlM (fun maps p0 => do
    let r ← paramStep fuel spec p0
    let (name, location, val) := r
    if jeqStr location (ofString ("path")) then
      (alSetJ maps.path name val).map (fun m => { maps with path := m })
    else if jeqStr location (ofString ("query")) then
      (alSetJ maps.query name val).map (fun m => { maps with query := m })
    else if jeqStr location (ofString ("header")) then
      (alSetJ maps.header name val).map (fun m => { maps with header := m })
    else .ok maps) ⟨[], [], []⟩

/-- Line 329: the seeded base headers. -/
def seedHeaders : List (Str × Str) :=
  [(ofString ("User-Agent"), ofString ("OpenAPI-to-Repeater/1.0")),
   (ofString ("Accept"), ofString ("application/json"))]

/-- Lines 330-331: overlay the stringified header parameters onto the seeds. -/
def overlayHeaderParams (hb : List (Str × Str)) (hp : List (JVal × JVal)) : List (Str × Str) :=
  hp.foldl (fun hb p => alSet hb (pyStr p.1) (pyStr p.2)) hb

/-- Python iteration as used by params.extend(x): lists yield their elements, dicts
    their keys, strings their characters; other values are not iterable. -/
def pyIterate : JVal → Except PyErr (List JVal)
  | .arr xs => .ok xs
  | .obj kvs => .ok (kvs.map (fun p => JVal.str p.1))
  | .str s => .ok (s.map (fun c => JVal.str [c]))
  | _ => .error .typeErr

/-- x or [] on a maybe-falsy parameters value. -/
def orEmptyList (v : JVal) : JVal := if truthy v then v else JVal.arr []

/-- Lines 333-358: sample the request body. Returns the optional body value (None
    stays None) and the updated headers_base (Content-Type set when a media type was
    chosen): application/json preferred, else the first content entry. -/
def requestBodyStep (fuel : Nat) (spec op : JVal) (hb : List (Str × Str)) :
    Except PyErr (Option JVal × List (Str × Str)) :=
  match op with
  | .obj opkvs =>
    match alGet opkvs (ofString ("requestBody")) with
    | none => .ok (none, hb)
    | some rb0 => do
      let rb ← resolveParamRef spec rb0
      match rb with
      | .obj rkvs =>
        let content := alGetD rkvs (ofString ("content")) (JVal.obj [])
        match content with
        | .obj ckvs =>
          match alGet ckvs (ofString ("application/json")) with
          | some media => do
            let schema ← pyGetDE media (ofString ("schema")) (JVal.obj [])
            let b ← simple_sample_from_schema spec fuel schema
            .ok (some b, alSet hb (ofString ("Content-Type")) (ofString ("application/json")))
          | none =>
            match ckvs with
            | [] => .ok (none, hb)
            | (ct, media) :: _ => do
              let schema ← pyGetDE media (ofString ("schema")) (JVal.obj [])
              let b ← simple_sample_from_schema spec fuel schema
              .ok (some b, alSet hb (ofString ("Content-Type")) ct)
        | .arr xs =>
          if strInList (ofString ("application/json")) xs then .error .typeErr
          else .error .attrErr
        | .str s =>
          if substr (ofString ("application/json")) s then .error .typeErr
          else .error .attrErr
        | _ => .error .typeErr
      | _ => .ok (none, hb)
  | _ => .ok (none, hb)

/-- Lines 360-362: substitute each sampled path parameter into the path template;
    a non-string parameter name would raise TypeError at the "{" + k concatenation. -/
def substitutePath (pp : List (JVal × JVal)) (tmpl : Str) : Except PyErr Str :=
  pp.foldlM (fun fp p =>
    match p.1 with
    | .str k => .ok (strReplace (Char.ofNat 123 :: k ++ [Char.ofNat 125]) (pyStr p.2) fp)
    | _ => .error .typeErr) tmpl

/-- Lines 364-369: the query string — empty when there are no query parameters, else
    '?' followed by the &-joined url-encoded k=v pairs. -/
def buildQueryString (qp : List (JVal × JVal)) : Str :=
  if qp.isEmpty then []
  else
    '?' :: pyJoin ['&']
      (qp.map (fun p => url_encode (pyStr p.1) ++ '=' :: url_encode (pyStr p.2)))

/-- One generated request record: label, raw_base and headers_base (line 386). -/
structure GenReq where
  label : Str
  raw_base : Str
  headers_base : List (Str × Str)

/-- Is a value Python's None? -/
def isNone : JVal → Bool
  | .null => true
  | _ => false

/-- Lines 294-390: build the GeneratedRequest record of one operation. -/
def buildOpEntry (fuel : Nat) (spec : JVal) (method pathTemplate : Str)
    (globalParams op : JVal) : Except PyErr GenReq := do
  let g ← pyIterate globalParams
  let opParamsRaw ← pyGetDE op (ofString ("parameters")) (JVal.arr [])
  let o ← pyIterate (orEmptyList opParamsRaw)
  let maps ← routeParams fuel spec (g ++ o)
  let hb0 := overlayHeaderParams seedHeaders maps.header
  let bodyHb ← requestBodyStep fuel spec op hb0
  let finalPath ← substitutePath maps.path pathTemplate
  let qs := buildQueryString maps.query
  let requestLine := pyUpper method ++ ' ' :: (finalPath ++ qs) ++ ofString (" HTTP/1.1")
  let lines := requestLine :: bodyHb.2.map (fun p => p.1 ++ ofString (": ") ++ p.2) ++ [[]] ++
    (match bodyHb.1 with
     | some b => if isNone b then [] else [jsonDumps b]
     | none => [])
  .ok ⟨pyUpper method ++ ' ' :: pathTemplate, pyJoin ['\n'] lines, bodyHb.2⟩

/-- The fixed, ordered method set of line 291. -/
def httpMethods : List Str :=
  [ofString ("get"), ofString ("post"), ofString ("put"), ofString ("patch"),
   ofString ("delete"), ofString ("head"), ofString ("options")]

/-- parse_and_generate (source lines 285-399), up to the UI bookkeeping: one
    GeneratedRequest per path template (document order) per present method (fixed
    method order). Any error aborts the whole generation, as the surrounding
    try/except of the source does. -/
def parse_and_generate (fuel : Nat) (spec : JVal) : Except PyErr (List GenReq) := do
  let paths ← pyGetDE spec (ofString ("paths")) (JVal.obj [])
  match paths with
  | .obj pathItems =>
    pathItems.foldlM (fun acc pi => do
      let globalParamsRaw ← pyGetDE pi.2 (ofString ("parameters")) (JVal.arr [])
      let globalParams := orEmptyList globalParamsRaw
      httpMethods.foldlM (fun acc2 method => do
        let present ←
          match pi.2 with
          | .obj pikvs => Except.ok (alGet pikvs method)
          | _ => Except.error PyErr.typeErr
        match present with
        | none => .ok acc2
        | some op => do
          let e ← buildOpEntry fuel spec method pi.1 globalParams op
          .ok (acc2 ++ [e])) acc) []
  | _ => .error .attrErr

/-! Observers used to state properties of the rendered output. -/

/-- s.split("\r\n"): the lines of a CRLF-terminated text (the last element is the
    empty piece after the final CRLF). -/
def splitCrlf : Str → List Str
  | [] => [[]]
  | '\r' :: '\n' :: rest => [] :: splitCrlf rest
  | c :: rest => consHead c (splitCrlf rest)

/-- The header name of an output line: everything before the first colon (the whole
    line when it has no colon). -/
def headerNameOf (l : Str) : Str :=
  match splitFirst ':' l with
  | some p => p.1
  | none => l

/-- A line whose header name is Host in any letter case. -/
def isHostLine (l : Str) : Bool := pyLower (headerNameOf l) == ofString ("host")

/-- A line whose header name is Authorization in any letter case. -/
def isAuthLine (l : Str) : Bool := pyLower (headerNameOf l) == ofString ("authorization")

/-- The header section of a rendered request: the CRLF-separated lines strictly
    between the request line and the first empty line. -/
def headerSection (s : Str) : List Str :=
  ((splitCrlf s).drop 1).takeWhile (fun l => !l.isEmpty)

/-- The properties sub-schemas of a schema node (empty when absent or ill-shaped). -/
def propsList (kvs : List (Str × JVal)) : List (Str × JVal) :=
  match alGet kvs (ofString ("properties")) with
  | some (.obj pkvs) => pkvs
  | _ => []

/-- The properties value, when present, is a dict. -/
def propsShapeOk (kvs : List (Str × JVal)) : Bool :=
  match alGet kvs (ofString ("properties")) with
  | some (.obj _) => true
  | some _ => false
  | none => true

/-- Well-shaped schema nodes, on which the sampler provably cannot raise: falsy
    nodes, and $ref-free dicts whose items sub-schema (when present) and properties
    sub-schemas (the properties value itself being a dict when present) are
    recursively well-shaped. -/
inductive SWF : JVal → Prop
  | of_falsy (v : JVal) : truthy v = false → SWF v
  | of_dict (kvs : List (Str × JVal)) :
      alGet kvs (ofString ("$ref")) = none →
      (∀ it, alGet kvs (ofString ("items")) = some it → SWF it) →
      propsShapeOk kvs = true →
      (∀ p ∈ propsList kvs, SWF p.2) →
      SWF (.obj kvs)

/-- Well-formed header pairs: colon-free, CR-free and LF-free names, CR-free and
    LF-free values. `parse_extra_headers` only ever produces such pairs. -/
def HdrWF (m : List (Str × Str)) : Prop :=
  ∀ kv ∈ m, ':' ∉ kv.1 ∧ '\r' ∉ kv.1 ∧ '\n' ∉ kv.1 ∧ '\r' ∉ kv.2 ∧ '\n' ∉ kv.2

/-! Lemmas about the CRLF machinery. -/

theorem strEnds_append_crlf (x : Str) : strEnds crlf (x ++ crlf) = true := by
  simp [strEnds, crlf, strStarts]

theorem crToLf_not_mem (s : Str) : '\r' ∉ crToLf s := by
  induction s using crToLf.induct with
  | case1 rest ih => simpa [crToLf] using ih
  | case2 c rest h ih =>
    rw [crToLf.eq_2 c rest h]
    simp only [List.mem_cons, not_or]
    exact ⟨fun e => h e.symm, ih⟩
  | case3 => simp [crToLf]

theorem crToLf_eq_self : ∀ s : Str, '\r' ∉ s → crToLf s = s := by
  intro s
  induction s using crToLf.induct with
  | case1 rest ih => intro h; exact absurd (List.mem_cons_self _ _) h
  | case2 c rest h1 ih =>
    intro h
    rw [crToLf.eq_2 c rest h1, ih (fun m => h (List.mem_cons_of_mem c m))]
  | case3 => intro _; rfl

theorem crlfToLf_eq_self : ∀ s : Str, '\r' ∉ s → crlfToLf s = s := by
  intro s
  induction s using crlfToLf.induct with
  | case1 rest ih => intro h; exact absurd (List.mem_cons_self _ _) h
  | case2 c rest h1 ih =>
    intro h
    rw [crlfToLf.eq_2 c rest h1, ih (fun m => h (List.mem_cons_of_mem c m))]
  | case3 => intro _; rfl

theorem lfToCrlf_append (a b : Str) : lfToCrlf (a ++ b) = lfToCrlf a ++ lfToCrlf b := by
  induction a using lfToCrlf.induct with
  | case1 rest ih => simp [lfToCrlf, ih]
  | case2 c rest h ih =>
    rw [List.cons_append, lfToCrlf.eq_2 c rest h, lfToCrlf.eq_2 c (rest ++ b) h, ih,
      List.cons_append]
  | case3 => simp [lfToCrlf]

theorem lfToCrlf_eq_self : ∀ s : Str, '\n' ∉ s → lfToCrlf s = s := by
  intro s
  induction s using lfToCrlf.induct with
  | case1 rest ih => intro h; exact absurd (List.mem_cons_self _ _) h
  | case2 c rest h1 ih =>
    intro h
    rw [lfToCrlf.eq_2 c rest h1, ih (fun m => h (List.mem_cons_of_mem c m))]
  | case3 => intro _; rfl

theorem crlfToLf_lfToCrlf_append :
    ∀ v : Str, '\r' ∉ v → ∀ w : Str, crlfToLf (lfToCrlf v ++ w) = v ++ crlfToLf w := by
  intro v
  induction v using lfToCrlf.induct with
  | case1 rest ih =>
    intro h w
    have hr : '\r' ∉ rest := fun m => h (List.mem_cons_of_mem _ m)
    show crlfToLf ('\r' :: '\n' :: (lfToCrlf rest ++ w)) = ('\n' :: rest) ++ crlfToLf w
    rw [crlfToLf.eq_1, ih hr w]
    rfl
  | case2 c rest h1 ih =>
    intro h w
    have hc : c ≠ '\r' := fun e => h (List.mem_cons.mpr (Or.inl e.symm))
    have hr : '\r' ∉ rest := fun m => h (List.mem_cons_of_mem _ m)
    rw [lfToCrlf.eq_2 c rest h1, List.cons_append,
      crlfToLf.eq_2 c (lfToCrlf rest ++ w) (fun _ e _ => hc e), ih hr w, List.cons_append]
  | case3 =>
    intro _ w
    simp [lfToCrlf]

theorem crlfToLf_lfToCrlf (v : Str) (h : '\r' ∉ v) : crlfToLf (lfToCrlf v) = v := by
  have := crlfToLf_lfToCrlf_append v h []
  simpa [crlfToLf] using this

theorem normalize_crlf_ends (s : Str) : strEnds crlf (normalize_crlf s) = true := by
  simp only [normalize_crlf]
  split
  · assumption
  · exact strEnds_append_crlf _

/-- C9: CRLF normalization is idempotent — for every string s,
    normalize_crlf (normalize_crlf s) = normalize_crlf s; in particular an already
    normalized text is returned byte-identical. -/
theorem normalize_crlf_idem : ∀ s : Str, normalize_crlf (normalize_crlf s) = normalize_crlf s := by
  intro s
  have hv : '\r' ∉ crToLf (crlfToLf s) := crToLf_not_mem _
  set v := crToLf (crlfToLf s) with hvdef
  by_cases h : strEnds crlf (lfToCrlf v) = true
  · have ht : normalize_crlf s = lfToCrlf v := by
      simp only [normalize_crlf, ← hvdef]
      rw [if_pos h]
    rw [ht]
    simp only [normalize_crlf, crlfToLf_lfToCrlf v hv, crToLf_eq_self v hv]
    rw [if_pos h]
  · have ht : normalize_crlf s = lfToCrlf v ++ crlf := by
      simp only [normalize_crlf, ← hvdef]
      rw [if_neg h]
    have hv' : '\r' ∉ v ++ ['\n'] := by
      intro m
      rcases List.mem_append.mp m with m1 | m2
      · exact hv m1
      · simp at m2
    have e1 : lfToCrlf v ++ crlf = lfToCrlf (v ++ ['\n']) := by
      rw [lfToCrlf_append]; rfl
    have h3 : strEnds crlf (lfToCrlf (v ++ ['\n'])) = true := by
      rw [← e1]; exact strEnds_append_crlf _
    rw [ht, e1]
    simp only [normalize_crlf, crlfToLf_lfToCrlf _ hv', crToLf_eq_self _ hv']
    rw [if_pos h3]

/-- C2 (amended): the normalization collapses CRLF and lone CR to LF, converts LF to
    CRLF and appends one extra CRLF only when the result does not already end with
    CRLF; consequently the normalized text — and every rendered request — always ends
    with one CRLF. It is not guaranteed to end with a blank line (CRLF CRLF). -/
theorem normalize_and_render_end_with_crlf :
    (∀ s : Str, strEnds crlf (normalize_crlf s) = true) ∧
    (∀ (base host tok : Str) (extras : List (Str × Str)),
      strEnds crlf (build_final_raw base host tok extras) = true) :=
  ⟨normalize_crlf_ends, fun _ _ _ _ => normalize_crlf_ends _⟩

/-- C2 (counterexample): rendering a body-less generated request yields text ending
    with a single CRLF after the last header, not with CRLF CRLF — the claim that the
    final rendered text always terminates in a blank CRLF-terminated line is false. -/
theorem render_not_crlf_crlf_terminated :
    build_final_raw (ofString ("GET / HTTP/1.1\nAccept: x\n")) (ofString ("h.example")) [] [] =
      ofString ("GET / HTTP/1.1\r\nHost: h.example\r\nAccept: x\r\n") ∧
    strEnds (ofString ("\r\n\r\n"))
      (build_final_raw (ofString ("GET / HTTP/1.1\nAccept: x\n")) (ofString ("h.example")) [] [])
      = false :=
  ⟨rfl, rfl⟩

/-! Lemmas about splitFirst, used for parse_host_and_port and for header names. -/

theorem splitFirst_eq_none : ∀ s : Str, sep ∉ s → splitFirst sep s = none := by
  intro s
  induction s with
  | nil => intro _; rfl
  | cons c rest ih =>
    intro h
    have hc : ¬(c = sep) := fun e => h (List.mem_cons.mpr (Or.inl e.symm))
    simp [splitFirst, hc, ih (fun m => h (List.mem_cons_of_mem c m))]

theorem splitFirst_append (a b : Str) (h : sep ∉ a) :
    splitFirst sep (a ++ sep :: b) = some (a, b) := by
  induction a with
  | nil => simp [splitFirst]
  | cons c rest ih =>
    have hc : ¬(c = sep) := fun e => h (List.mem_cons.mpr (Or.inl e.symm))
    simp [splitFirst, hc, ih (fun m => h (List.mem_cons_of_mem c m))]

theorem splitFirst_shape :
    ∀ s a b : Str, splitFirst sep s = some (a, b) → s = a ++ sep :: b ∧ sep ∉ a := by
  intro s
  induction s with
  | nil => intro a b h; exact absurd h (by simp [splitFirst])
  | cons c rest ih =>
    intro a b h
    by_cases hc : c = sep
    · subst hc
      simp [splitFirst] at h
      obtain ⟨ha, hb⟩ := h
      subst ha; subst hb
      simp
    · simp [splitFirst, hc] at h
      obtain ⟨p, hp, hpa⟩ := h
      obtain ⟨h1, h2⟩ := ih p b hp
      subst hpa
      constructor
      · rw [h1]; rfl
      · intro m
        rcases List.mem_cons.mp m with e | m2
        · exact hc e.symm
        · exact h2 m2

/-- C3 (counterexample): on the host field "a:1:2" the source splits at the FIRST
    colon — yielding host "a" and (since "1:2" is not a number) the default port 80 —
    while the spec's "split on the last colon" reading would yield ("a:1", 2). -/
theorem parse_host_and_port_not_lastcolon :
    parse_host_and_port (ofString ("a:1:2")) false = (ofString ("a"), 80) ∧
    parse_host_and_port_lastcolon (ofString ("a:1:2")) false = (ofString ("a:1"), 2) ∧
    parse_host_and_port (ofString ("a:1:2")) false ≠
      parse_host_and_port_lastcolon (ofString ("a:1:2")) false := by
  refine ⟨rfl, rfl, ?_⟩
  decide

/-- C3 (amended): parse_host_and_port strips a leading http:// or https:// scheme,
    strips everything from the first '/' onward, splits the remainder on the FIRST
    colon (not the last), and returns port 443 (use_https) or 80 otherwise when there
    is no colon or the part after the first colon is not a valid integer. -/
theorem parse_host_and_port_first_colon :
    (∀ (hf : Str) (u : Bool), ':' ∉ cleanedHostField hf →
      parse_host_and_port hf u = (cleanedHostField hf, if u then 443 else 80)) ∧
    (∀ (hf : Str) (u : Bool) (a b : Str), cleanedHostField hf = a ++ ':' :: b → ':' ∉ a →
      parse_host_and_port hf u = (a, (pyInt b).getD (if u then 443 else 80))) := by
  constructor
  · intro hf u h
    simp [parse_host_and_port, splitFirst_eq_none _ h]
  · intro hf u a b hsplit ha
    simp only [parse_host_and_port, hsplit, splitFirst_append a b ha]
    cases hp : pyInt b with
    | none => simp [hp, Option.getD]
    | some port => simp [hp, Option.getD]

/-- C3 (witness): the first-colon characterization applied to "example.com:8443" with
    use_https gives host example.com and port 8443. -/
theorem parse_host_and_port_first_colon_witness :
    parse_host_and_port (ofString ("example.com:8443")) true = (ofString ("example.com"), 8443) := by
  have h := parse_host_and_port_first_colon.2 (ofString ("example.com:8443")) true
    (ofString ("example.com")) (ofString ("8443")) (by decide) (by decide)
  rw [h]
  decide

/-! Lemmas about splitChar, splitCrlf and pyJoin: the line structure of texts. -/

theorem splitChar_ne_nil (sep : Char) : ∀ s : Str, splitChar sep s ≠ [] := by
  intro s
  cases s with
  | nil => simp [splitChar]
  | cons c rest =>
    simp only [splitChar]
    cases h : splitChar sep rest with
    | nil => simp
    | cons l ls =>
      by_cases hc : c = sep <;> simp [hc]

theorem mem_splitChar_not_sep (sep : Char) :
    ∀ s l : Str, l ∈ splitChar sep s → sep ∉ l := by
  intro s
  induction s with
  | nil =>
    intro l hl
    simp [splitChar] at hl
    simp [hl]
  | cons c rest ih =>
    intro l hl
    simp only [splitChar] at hl
    cases h : splitChar sep rest with
    | nil => exact absurd h (splitChar_ne_nil sep rest)
    | cons cur rs =>
      rw [h] at hl
      by_cases hc : c = sep
      · simp only [hc, if_pos rfl] at hl
        rcases List.mem_cons.mp hl with e | m
        · simp [e]
        · exact ih l (h ▸ m)
      · simp only [if_neg hc] at hl
        rcases List.mem_cons.mp hl with e | m
        · subst e
          intro hm
          rcases List.mem_cons.mp hm with e2 | m2
          · exact hc e2.symm
          · exact ih cur (h ▸ List.mem_cons_self cur rs) m2
        · exact ih l (h ▸ List.mem_cons_of_mem cur m)

theorem mem_splitChar_subset (sep : Char) :
    ∀ s l : Str, l ∈ splitChar sep s → ∀ c ∈ l, c ∈ s := by
  intro s
  induction s with
  | nil =>
    intro l hl
    simp [splitChar] at hl
    simp [hl]
  | cons a rest ih =>
    intro l hl
    simp only [splitChar] at hl
    cases h : splitChar sep rest with
    | nil => exact absurd h (splitChar_ne_nil sep rest)
    | cons cur rs =>
      rw [h] at hl
      by_cases hc : a = sep
      · simp only [hc, if_pos rfl] at hl
        rcases List.mem_cons.mp hl with e | m
        · intro c hcl; rw [e] at hcl; exact absurd hcl (List.not_mem_nil c)
        · intro c hcl
          exact List.mem_cons_of_mem a (ih l (h ▸ m) c hcl)
      · simp only [if_neg hc] at hl
        rcases List.mem_cons.mp hl with e | m
        · subst e
          intro c hcl
          rcases List.mem_cons.mp hcl with e2 | m2
          · exact e2 ▸ List.mem_cons_self a rest
          · exact List.mem_cons_of_mem a (ih cur (h ▸ List.mem_cons_self cur rs) c m2)
        · intro c hcl
          exact List.mem_cons_of_mem a (ih l (h ▸ List.mem_cons_of_mem cur m) c hcl)

theorem splitCrlf_eq_self : ∀ l : Str, '\r' ∉ l → splitCrlf l = [l] := by
  intro l
  induction l using splitCrlf.induct with
  | case1 => intro _; rfl
  | case2 rest ih => intro h; exact absurd (List.mem_cons_self _ _) h
  | case3 c rest h1 ih =>
    intro h
    rw [splitCrlf.eq_3 c rest h1, ih (fun m => h (List.mem_cons_of_mem c m))]
    rfl

theorem splitCrlf_append : ∀ l : Str, '\r' ∉ l →
    ∀ t : Str, splitCrlf (l ++ crlf ++ t) = l :: splitCrlf t := by
  intro l
  induction l using splitCrlf.induct with
  | case1 =>
    intro _ t
    show splitCrlf ('\r' :: '\n' :: t) = [] :: splitCrlf t
    rw [splitCrlf.eq_2]
  | case2 rest ih => intro h; exact absurd (List.mem_cons_self _ _) h
  | case3 c rest h1 ih =>
    intro h t
    have hc : c ≠ '\r' := fun e => h (List.mem_cons.mpr (Or.inl e.symm))
    have hr : '\r' ∉ rest := fun m => h (List.mem_cons_of_mem c m)
    show splitCrlf (c :: (rest ++ crlf ++ t)) = (c :: rest) :: splitCrlf t
    have h2 : ∀ rest_1, c = '\r' → rest ++ crlf ++ t = '\n' :: rest_1 → False :=
      fun _ e _ => hc e
    rw [splitCrlf.eq_3 c (rest ++ crlf ++ t) h2, ih hr t]
    rfl

theorem splitCrlf_pyJoin : ∀ ls : List Str, ls ≠ [] → (∀ l ∈ ls, '\r' ∉ l) →
    splitCrlf (pyJoin crlf ls) = ls := by
  intro ls
  induction ls with
  | nil => intro h; exact absurd rfl h
  | cons l rest ih =>
    intro _ hcl
    cases rest with
    | nil =>
      show splitCrlf (pyJoin crlf [l]) = [l]
      exact splitCrlf_eq_self l (hcl l (List.mem_cons_self l []))
    | cons l2 rest2 =>
      show splitCrlf (l ++ crlf ++ pyJoin crlf (l2 :: rest2)) = l :: l2 :: rest2
      rw [splitCrlf_append l (hcl l (List.mem_cons_self _ _)) _,
        ih (by simp) (fun x hx => hcl x (List.mem_cons_of_mem l hx))]

theorem pyJoin_cons (sep l : Str) (rest : List Str) (h : rest ≠ []) :
    pyJoin sep (l :: rest) = l ++ sep ++ pyJoin sep rest := by
  cases rest with
  | nil => exact absurd rfl h
  | cons a as => rfl

theorem pyJoin_append_nil_elem (sep : Str) :
    ∀ ls : List Str, ls ≠ [] → pyJoin sep (ls ++ [[]]) = pyJoin sep ls ++ sep := by
  intro ls
  induction ls with
  | nil => intro h; exact absurd rfl h
  | cons l rest ih =>
    intro _
    cases rest with
    | nil => simp [pyJoin]
    | cons l2 rest2 =>
      rw [List.cons_append, pyJoin_cons sep l ((l2 :: rest2) ++ [[]]) (by simp),
        ih (by simp), pyJoin_cons sep l (l2 :: rest2) (by simp)]
      simp [List.append_assoc]

theorem pyJoin_lfToCrlf : ∀ ls : List Str, (∀ l ∈ ls, '\n' ∉ l) →
    lfToCrlf (pyJoin ['\n'] ls) = pyJoin crlf ls := by
  intro ls
  induction ls with
  | nil => intro _; rfl
  | cons l rest ih =>
    intro hcl
    cases rest with
    | nil => exact lfToCrlf_eq_self l (hcl l (List.mem_cons_self l []))
    | cons l2 rest2 =>
      show lfToCrlf (l ++ ['\n'] ++ pyJoin ['\n'] (l2 :: rest2)) =
        l ++ crlf ++ pyJoin crlf (l2 :: rest2)
      rw [lfToCrlf_append, lfToCrlf_append,
        lfToCrlf_eq_self l (hcl l (List.mem_cons_self _ _)),
        ih (fun x hx => hcl x (List.mem_cons_of_mem l hx))]
      rfl

theorem noCR_pyJoin_lf : ∀ ls : List Str, (∀ l ∈ ls, '\r' ∉ l) →
    '\r' ∉ pyJoin ['\n'] ls := by
  intro ls
  induction ls with
  | nil => intro _; simp [pyJoin]
  | cons l rest ih =>
    intro hcl
    cases rest with
    | nil => exact hcl l (List.mem_cons_self l [])
    | cons l2 rest2 =>
      show '\r' ∉ l ++ ['\n'] ++ pyJoin ['\n'] (l2 :: rest2)
      intro m
      rcases List.mem_append.mp m with m1 | m2
      · rcases List.mem_append.mp m1 with m3 | m4
        · exact hcl l (List.mem_cons_self _ _) m3
        · simp at m4
      · exact ih (fun x hx => hcl x (List.mem_cons_of_mem l hx)) m2

/-- The key structural fact: joining CR/LF-free lines with LF and normalizing yields
    the CRLF-joined lines, possibly followed by one final empty line. -/
theorem splitCrlf_normalize_pyJoin (ls : List Str) (hne : ls ≠ [])
    (hcl : ∀ l ∈ ls, '\r' ∉ l ∧ '\n' ∉ l) :
    splitCrlf (normalize_crlf (pyJoin ['\n'] ls)) = ls ∨
    splitCrlf (normalize_crlf (pyJoin ['\n'] ls)) = ls ++ [[]] := by
  have hCR : ∀ l ∈ ls, '\r' ∉ l := fun l hl => (hcl l hl).1
  have hLF : ∀ l ∈ ls, '\n' ∉ l := fun l hl => (hcl l hl).2
  have hj : '\r' ∉ pyJoin ['\n'] ls := noCR_pyJoin_lf ls hCR
  have h1 : crlfToLf (pyJoin ['\n'] ls) = pyJoin ['\n'] ls := crlfToLf_eq_self _ hj
  have h2 : crToLf (pyJoin ['\n'] ls) = pyJoin ['\n'] ls := crToLf_eq_self _ hj
  have h3 : lfToCrlf (pyJoin ['\n'] ls) = pyJoin crlf ls := pyJoin_lfToCrlf ls hLF
  simp only [normalize_crlf, h1, h2, h3]
  split
  · left
    exact splitCrlf_pyJoin ls hne hCR
  · right
    rw [← pyJoin_append_nil_elem crlf ls hne]
    have : ∀ l ∈ ls ++ [[]], '\r' ∉ l := by
      intro l hl
      rcases List.mem_append.mp hl with m | m
      · exact hCR l m
      · simp at m; simp [m]
    rw [splitCrlf_pyJoin (ls ++ [[]]) (by simp) this]


/-! Cleanliness of the pieces the renderer manipulates: membership/subset lemmas. -/

theorem mem_dropWhile_imp {p : Char → Bool} {c : Char} :
    ∀ l : Str, c ∈ l.dropWhile p → c ∈ l := by
  intro l
  induction l with
  | nil => intro h; simpa using h
  | cons a rest ih =>
    intro h
    by_cases ha : p a
    · rw [List.dropWhile_cons_of_pos ha] at h
      exact List.mem_cons_of_mem a (ih h)
    · rwa [List.dropWhile_cons_of_neg ha] at h

theorem mem_pyStrip {c : Char} {s : Str} (h : c ∈ pyStrip s) : c ∈ s := by
  simp only [pyStrip] at h
  rw [List.mem_reverse] at h
  have h2 := mem_dropWhile_imp _ h
  rw [List.mem_reverse] at h2
  exact mem_dropWhile_imp _ h2

theorem mem_consHead :
    ∀ (c : Char) (L : List Str) (x : Str), x ∈ consHead c L →
      (L = [] ∧ x = [c]) ∨ (∃ l ls, L = l :: ls ∧ (x = c :: l ∨ x ∈ ls)) := by
  intro c L x h
  cases L with
  | nil =>
    left
    simp only [consHead] at h
    simpa using h
  | cons l ls =>
    right
    refine ⟨l, ls, rfl, ?_⟩
    simp only [consHead] at h
    exact List.mem_cons.mp h

theorem splitlines_clean : ∀ s l, l ∈ splitlines s → '\r' ∉ l ∧ '\n' ∉ l := by
  intro s
  induction s using splitlines.induct with
  | case1 => intro l h; simp [splitlines] at h
  | case2 rest ih =>
    intro l h
    rcases List.mem_cons.mp h with e | m
    · subst e; simp
    · exact ih l m
  | case3 rest h1 ih =>
    intro l h
    rw [splitlines.eq_3 rest h1] at h
    rcases List.mem_cons.mp h with e | m
    · subst e; simp
    · exact ih l m
  | case4 rest ih =>
    intro l h
    rcases List.mem_cons.mp h with e | m
    · subst e; simp
    · exact ih l m
  | case5 c rest h1 h2 h3 ih =>
    intro l h
    rw [splitlines.eq_5 c rest h1 h2 h3] at h
    rcases mem_consHead c (splitlines rest) l h with ⟨_, e⟩ | ⟨l2, ls2, hL, hx⟩
    · subst e
      refine ⟨?_, ?_⟩
      · simp only [List.mem_singleton]
        intro e
        exact h2 e.symm
      · simp only [List.mem_singleton]
        intro e
        exact h3 e.symm
    · rcases hx with e | m
      · subst e
        have hmem : l2 ∈ splitlines rest := by
          rw [hL]; exact List.mem_cons_self l2 ls2
        have hcl := ih l2 hmem
        constructor
        · intro hm
          rcases List.mem_cons.mp hm with e2 | m2
          · exact h2 e2.symm
          · exact hcl.1 m2
        · intro hm
          rcases List.mem_cons.mp hm with e2 | m2
          · exact h3 e2.symm
          · exact hcl.2 m2
      · have hmem : l ∈ splitlines rest := by
          rw [hL]; exact List.mem_cons_of_mem l2 m
        exact ih l hmem

theorem foldl_preserve_mem {α β : Type} (P : β → Prop) (f : β → α → β) :
    ∀ l : List α, (∀ a ∈ l, ∀ b, P b → P (f b a)) → ∀ b, P b → P (l.foldl f b) := by
  intro l
  induction l with
  | nil => intro _ b hb; exact hb
  | cons a rest ih =>
    intro hstep b hb
    exact ih (fun x hx b' hb' => hstep x (List.mem_cons_of_mem a hx) b' hb')
      (f b a) (hstep a (List.mem_cons_self a rest) b hb)

theorem mem_alSet {β : Type} :
    ∀ (m : List (Str × β)) (k : Str) (v : β) (kv : Str × β),
      kv ∈ alSet m k v → kv ∈ m ∨ kv = (k, v) := by
  intro m k v kv h
  induction m with
  | nil =>
    right
    simpa [alSet] using h
  | cons p rest ih =>
    simp only [alSet] at h
    by_cases hp : p.1 = k
    · rw [if_pos hp] at h
      rcases List.mem_cons.mp h with e | m2
      · right; rw [e, hp]
      · left; exact List.mem_cons_of_mem p m2
    · rw [if_neg hp] at h
      rcases List.mem_cons.mp h with e | m2
      · left; exact e ▸ List.mem_cons_self p rest
      · rcases ih m2 with m3 | e
        · left; exact List.mem_cons_of_mem p m3
        · right; exact e

theorem alSet_mem_self {β : Type} :
    ∀ (m : List (Str × β)) (k : Str) (v : β), (k, v) ∈ alSet m k v := by
  intro m k v
  induction m with
  | nil => simp [alSet]
  | cons p rest ih =>
    simp only [alSet]
    by_cases hp : p.1 = k
    · rw [if_pos hp, hp]
      exact List.mem_cons_self _ _
    · rw [if_neg hp]
      exact List.mem_cons_of_mem p ih

theorem alSet_mem_of_ne {β : Type} :
    ∀ (m : List (Str × β)) (k a : Str) (v b : β), (a, b) ∈ m → a ≠ k →
      (a, b) ∈ alSet m k v := by
  intro m k a v b hm hne
  induction m with
  | nil => simpa using hm
  | cons p rest ih =>
    simp only [alSet]
    by_cases hp : p.1 = k
    · rw [if_pos hp]
      rcases List.mem_cons.mp hm with e | m2
      · exact absurd (by rw [← e] at hp; exact hp) hne
      · exact List.mem_cons_of_mem _ m2
    · rw [if_neg hp]
      rcases List.mem_cons.mp hm with e | m2
      · exact e ▸ List.mem_cons_self p _
      · exact List.mem_cons_of_mem p (ih m2)

theorem alSet_keys {β : Type} :
    ∀ (m : List (Str × β)) (k : Str) (v : β),
      (alSet m k v).map Prod.fst =
        if k ∈ m.map Prod.fst then m.map Prod.fst else m.map Prod.fst ++ [k] := by
  intro m k v
  induction m with
  | nil => simp [alSet]
  | cons p rest ih =>
    simp only [alSet]
    by_cases hp : p.1 = k
    · rw [if_pos hp]
      have : k ∈ (p :: rest).map Prod.fst := by
        simp only [List.map_cons, List.mem_cons]
        exact Or.inl hp.symm
      rw [if_pos this]
      simp [hp]
    · rw [if_neg hp]
      simp only [List.map_cons, ih]
      by_cases hk : k ∈ rest.map Prod.fst
      · rw [if_pos hk, if_pos (by simp [hk])]
      · have hnotin : k ∉ (p :: rest).map Prod.fst := by
          simp only [List.map_cons, List.mem_cons]
          intro hor
          rcases hor with e | m
          · exact hp e.symm
          · exact hk m
        have hnotin2 : ¬(k ∈ p.1 :: List.map Prod.fst rest) := by
          simp only [List.mem_cons]
          rintro (e | m)
          · exact hp e.symm
          · exact hk m
        rw [if_neg hk, if_neg hnotin2]
        simp

theorem alSet_keys_nodup {β : Type} (m : List (Str × β)) (k : Str) (v : β)
    (h : (m.map Prod.fst).Nodup) : ((alSet m k v).map Prod.fst).Nodup := by
  rw [alSet_keys]
  by_cases hk : k ∈ m.map Prod.fst
  · rwa [if_pos hk]
  · rw [if_neg hk]
    simp only [List.nodup_append, List.nodup_cons]
    refine ⟨h, by simp, ?_⟩
    intro a ha
    simp only [List.mem_singleton]
    intro e
    exact hk (e ▸ ha)

/-- parse_extra_headers only produces well-formed header pairs, for every input. -/
theorem parse_extra_headers_wf (txt : Str) : HdrWF (parse_extra_headers txt) := by
  simp only [parse_extra_headers]
  apply foldl_preserve_mem HdrWF
  · intro raw hraw hs hhs
    dsimp only
    by_cases h1 : (pyStrip raw).isEmpty
    · simpa [h1] using hhs
    · rw [if_neg h1]
      by_cases h2 : strStarts ['#'] (pyStrip raw) = true
      · simpa [h2] using hhs
      · rw [if_neg h2]
        cases h3 : splitFirst ':' (pyStrip raw) with
        | none => exact hhs
        | some p =>
          dsimp only
          by_cases h4 : (pyStrip p.1).isEmpty
          · simpa [h4] using hhs
          · rw [if_neg h4]
            intro kv hkv
            rcases mem_alSet _ _ _ kv hkv with hm | he
            · exact hhs kv hm
            · subst he
              have hclean := splitlines_clean txt raw hraw
              have hshape := splitFirst_shape (pyStrip raw) p.1 p.2 h3
              have hsub1 : ∀ c, c ∈ p.1 → c ∈ raw := by
                intro c hc
                have hcl : c ∈ pyStrip raw := by
                  rw [hshape.1]
                  exact List.mem_append.mpr (Or.inl hc)
                exact mem_pyStrip hcl
              have hsub2 : ∀ c, c ∈ p.2 → c ∈ raw := by
                intro c hc
                have hcl : c ∈ pyStrip raw := by
                  rw [hshape.1]
                  exact List.mem_append.mpr (Or.inr (List.mem_cons_of_mem _ hc))
                exact mem_pyStrip hcl
              refine ⟨?_, ?_, ?_, ?_, ?_⟩
              · intro hc
                exact hshape.2 (mem_pyStrip hc)
              · intro hc
                exact hclean.1 (hsub1 _ (mem_pyStrip hc))
              · intro hc
                exact hclean.2 (hsub1 _ (mem_pyStrip hc))
              · intro hc
                exact hclean.1 (hsub2 _ (mem_pyStrip hc))
              · intro hc
                exact hclean.2 (hsub2 _ (mem_pyStrip hc))
  · intro kv hkv
    exact absurd hkv (List.not_mem_nil kv)


/-! The pieces of the rendered output are CR/LF-free. -/

theorem mem_tail_imp {α : Type} {a : α} : ∀ l : List α, a ∈ l.tail → a ∈ l := by
  intro l h
  cases l with
  | nil => simpa using h
  | cons x rest => exact List.mem_cons_of_mem x h

theorem baseLines_clean {base : Str} (hb : '\r' ∉ base) :
    ∀ l ∈ baseLines base, '\r' ∉ l ∧ '\n' ∉ l := by
  intro l hl
  exact ⟨fun hc => hb (mem_splitChar_subset '\n' base l hl '\r' hc),
    fun hc => mem_splitChar_not_sep '\n' base l hl hc⟩

theorem baseRequestLine_mem (base : Str) : baseRequestLine base ∈ baseLines base := by
  simp only [baseRequestLine]
  cases h : baseLines base with
  | nil => exact absurd h (splitChar_ne_nil '\n' base)
  | cons l rest => simp

theorem baseHeadersPart_mem {base l : Str} (h : l ∈ baseHeadersPart base) :
    l ∈ baseLines base := by
  simp only [baseHeadersPart] at h
  cases hidx : (baseLines base).tail.findIdx? (fun l => (pyStrip l).isEmpty) with
  | none =>
    rw [hidx] at h
    exact mem_tail_imp _ h
  | some i =>
    rw [hidx] at h
    exact mem_tail_imp _ (List.take_subset i _ h)

theorem baseBodyPart_mem {base l : Str} (h : l ∈ baseBodyPart base) :
    l ∈ baseLines base := by
  simp only [baseBodyPart] at h
  cases hidx : (baseLines base).tail.findIdx? (fun l => (pyStrip l).isEmpty) with
  | none =>
    rw [hidx] at h
    simp at h
  | some i =>
    rw [hidx] at h
    exact mem_tail_imp _ (List.drop_subset (i + 1) _ h)

theorem parseHeaderLines_wf (ls : List Str) (hclean : ∀ l ∈ ls, '\r' ∉ l ∧ '\n' ∉ l) :
    HdrWF (parseHeaderLines ls) := by
  simp only [parseHeaderLines]
  apply foldl_preserve_mem HdrWF
  · intro h hmem hs hhs
    dsimp only
    cases h3 : splitFirst ':' h with
    | none => exact hhs
    | some p =>
      dsimp only
      intro kv hkv
      rcases mem_alSet _ _ _ kv hkv with hm | he
      · exact hhs kv hm
      · subst he
        have hcl := hclean h hmem
        have hshape := splitFirst_shape h p.1 p.2 h3
        have hsub1 : ∀ c, c ∈ p.1 → c ∈ h := by
          intro c hc
          rw [hshape.1]
          exact List.mem_append.mpr (Or.inl hc)
        have hsub2 : ∀ c, c ∈ p.2 → c ∈ h := by
          intro c hc
          rw [hshape.1]
          exact List.mem_append.mpr (Or.inr (List.mem_cons_of_mem _ hc))
        refine ⟨?_, ?_, ?_, ?_, ?_⟩
        · intro hc
          exact hshape.2 (mem_pyStrip hc)
        · intro hc
          exact hcl.1 (hsub1 _ (mem_pyStrip hc))
        · intro hc
          exact hcl.2 (hsub1 _ (mem_pyStrip hc))
        · intro hc
          exact hcl.1 (hsub2 _ (mem_pyStrip hc))
        · intro hc
          exact hcl.2 (hsub2 _ (mem_pyStrip hc))
  · intro kv hkv
    exact absurd hkv (List.not_mem_nil kv)

theorem mergedHeaders_wf (base tok : Str) (extras : List (Str × Str))
    (hb : '\r' ∉ base) (ht1 : '\r' ∉ tok) (ht2 : '\n' ∉ tok) (hex : HdrWF extras) :
    HdrWF (mergedHeaders base tok extras) := by
  have h0 : HdrWF (parseHeaderLines (baseHeadersPart base)) :=
    parseHeaderLines_wf _ (fun l hl => baseLines_clean hb l (baseHeadersPart_mem hl))
  have h1 : HdrWF (if tok.isEmpty then parseHeaderLines (baseHeadersPart base)
      else alSet (parseHeaderLines (baseHeadersPart base)) (ofString ("Authorization"))
        (ofString ("Bearer ") ++ tok)) := by
    split
    · exact h0
    · intro kv hkv
      rcases mem_alSet _ _ _ kv hkv with hm | he
      · exact h0 kv hm
      · subst he
        refine ⟨?_, ?_, ?_, ?_, ?_⟩
        · show ':' ∉ ofString ("Authorization")
          decide
        · show '\r' ∉ ofString ("Authorization")
          decide
        · show '\n' ∉ ofString ("Authorization")
          decide
        · show '\r' ∉ ofString ("Bearer ") ++ tok
          intro hc
          rcases List.mem_append.mp hc with m | m
          · revert m; decide
          · exact ht1 m
        · show '\n' ∉ ofString ("Bearer ") ++ tok
          intro hc
          rcases List.mem_append.mp hc with m | m
          · revert m; decide
          · exact ht2 m
  simp only [mergedHeaders]
  apply foldl_preserve_mem HdrWF
  · intro kv0 hkv0 m hm
    dsimp only
    split
    · exact hm
    · intro kv hkv
      rcases mem_alSet _ _ _ kv hkv with h2 | he
      · exact hm kv h2
      · subst he
        exact hex kv0 hkv0
  · exact h1

theorem emittedHeaderLines_shape {base tok : Str} {extras : List (Str × Str)} {l : Str}
    (h : l ∈ emittedHeaderLines base tok extras) :
    ∃ kv ∈ mergedHeaders base tok extras,
      l = kv.1 ++ ofString (": ") ++ kv.2 ∧ pyLower kv.1 ≠ ofString ("host") := by
  simp only [emittedHeaderLines, List.mem_map] at h
  obtain ⟨kv, hkv, he⟩ := h
  rw [List.mem_filter] at hkv
  exact ⟨kv, hkv.1, he.symm, by simpa using hkv.2⟩

theorem mem_newLines {base host tok : Str} {extras : List (Str × Str)} {l : Str}
    (hl : l ∈ newLines base host tok extras) :
    l = baseRequestLine base ∨ l = ofString ("Host: ") ++ host ∨
    l ∈ emittedHeaderLines base tok extras ∨ l = [] ∨ l ∈ baseBodyPart base := by
  simp only [newLines] at hl
  rcases List.mem_cons.mp hl with e | hl2
  · exact Or.inl e
  rcases List.mem_cons.mp hl2 with e | hl3
  · exact Or.inr (Or.inl e)
  rcases List.mem_append.mp hl3 with m | m
  · rcases List.mem_append.mp m with m2 | m2
    · exact Or.inr (Or.inr (Or.inl m2))
    · simp only [List.mem_singleton] at m2
      exact Or.inr (Or.inr (Or.inr (Or.inl m2)))
  · exact Or.inr (Or.inr (Or.inr (Or.inr m)))

theorem newLines_clean (base host tok : Str) (extras : List (Str × Str))
    (hb : '\r' ∉ base) (hh1 : '\r' ∉ host) (hh2 : '\n' ∉ host)
    (ht1 : '\r' ∉ tok) (ht2 : '\n' ∉ tok) (hex : HdrWF extras) :
    ∀ l ∈ newLines base host tok extras, '\r' ∉ l ∧ '\n' ∉ l := by
  intro l hl
  rcases mem_newLines hl with e | e | m | e | m
  · exact e ▸ baseLines_clean hb _ (baseRequestLine_mem base)
  · subst e
    constructor
    · intro hc
      rcases List.mem_append.mp hc with m2 | m2
      · revert m2; decide
      · exact hh1 m2
    · intro hc
      rcases List.mem_append.mp hc with m2 | m2
      · revert m2; decide
      · exact hh2 m2
  · obtain ⟨kv, hkv, he, _⟩ := emittedHeaderLines_shape m
    have hwf := mergedHeaders_wf base tok extras hb ht1 ht2 hex kv hkv
    subst he
    constructor
    · intro hc
      rcases List.mem_append.mp hc with m2 | m2
      · rcases List.mem_append.mp m2 with m3 | m3
        · exact hwf.2.1 m3
        · revert m3; decide
      · exact hwf.2.2.2.1 m2
    · intro hc
      rcases List.mem_append.mp hc with m2 | m2
      · rcases List.mem_append.mp m2 with m3 | m3
        · exact hwf.2.2.1 m3
        · revert m3; decide
      · exact hwf.2.2.2.2 m2
  · subst e
    simp
  · exact baseLines_clean hb _ (baseBodyPart_mem m)

/-- The lines of the rendered output are exactly the emitted lines, possibly followed
    by one final empty line. -/
theorem splitCrlf_build_final (base host tok : Str) (extras : List (Str × Str))
    (hb : '\r' ∉ base) (hh1 : '\r' ∉ host) (hh2 : '\n' ∉ host)
    (ht1 : '\r' ∉ tok) (ht2 : '\n' ∉ tok) (hex : HdrWF extras) :
    splitCrlf (build_final_raw base host tok extras) = newLines base host tok extras ∨
    splitCrlf (build_final_raw base host tok extras) =
      newLines base host tok extras ++ [[]] := by
  simp only [build_final_raw]
  exact splitCrlf_normalize_pyJoin _ (by simp [newLines])
    (newLines_clean base host tok extras hb hh1 hh2 ht1 ht2 hex)

theorem takeWhile_prefix_stop {p : Str → Bool} :
    ∀ pre : List Str, (∀ l ∈ pre, p l = true) → ∀ (x : Str) (suf : List Str), p x = false →
      List.takeWhile p (pre ++ x :: suf) = pre := by
  intro pre
  induction pre with
  | nil =>
    intro _ x suf hx
    simp [List.takeWhile_cons, hx]
  | cons a rest ih =>
    intro hall x suf hx
    rw [List.cons_append, List.takeWhile_cons_of_pos (hall a (List.mem_cons_self a rest)),
      ih (fun l hl => hall l (List.mem_cons_of_mem a hl)) x suf hx]

theorem hostLine_not_empty (host : Str) : (ofString ("Host: ") ++ host).isEmpty = false := rfl

theorem emittedLine_not_empty {base tok : Str} {extras : List (Str × Str)} {l : Str}
    (h : l ∈ emittedHeaderLines base tok extras) : l.isEmpty = false := by
  obtain ⟨kv, _, he, _⟩ := emittedHeaderLines_shape h
  subst he
  cases hk : kv.1 with
  | nil => rfl
  | cons c rest => rfl

/-- The header section of the rendered output is the injected Host line followed by
    the emitted merged-header lines. -/
theorem headerSection_build (base host tok : Str) (extras : List (Str × Str))
    (hb : '\r' ∉ base) (hh1 : '\r' ∉ host) (hh2 : '\n' ∉ host)
    (ht1 : '\r' ∉ tok) (ht2 : '\n' ∉ tok) (hex : HdrWF extras) :
    headerSection (build_final_raw base host tok extras) =
      (ofString ("Host: ") ++ host) :: emittedHeaderLines base tok extras := by
  have hpre : ∀ l ∈ (ofString ("Host: ") ++ host) :: emittedHeaderLines base tok extras,
      (fun l : Str => !l.isEmpty) l = true := by
    intro l hl
    rcases List.mem_cons.mp hl with e | m
    · subst e
      simp [hostLine_not_empty]
    · simp [emittedLine_not_empty m]
  rcases splitCrlf_build_final base host tok extras hb hh1 hh2 ht1 ht2 hex with h | h
  · simp only [headerSection]
    rw [h]
    have e2 : (newLines base host tok extras).drop 1 =
        ((ofString ("Host: ") ++ host) :: emittedHeaderLines base tok extras) ++
          [] :: baseBodyPart base := by
      simp [newLines, List.append_assoc]
    rw [e2, takeWhile_prefix_stop _ hpre [] (baseBodyPart base) rfl]
  · simp only [headerSection]
    rw [h]
    have e2 : (newLines base host tok extras ++ [[]]).drop 1 =
        ((ofString ("Host: ") ++ host) :: emittedHeaderLines base tok extras) ++
          [] :: (baseBodyPart base ++ [[]]) := by
      simp [newLines, List.append_assoc]
    rw [e2, takeWhile_prefix_stop _ hpre [] (baseBodyPart base ++ [[]]) rfl]



/-! Header-name lemmas for the rendered lines. -/

theorem headerNameOf_emitted (k v : Str) (hk : ':' ∉ k) :
    headerNameOf (k ++ ofString (": ") ++ v) = k := by
  have e : k ++ ofString (": ") ++ v = k ++ ':' :: (' ' :: v) := by
    simp [ofString]
  simp only [headerNameOf, e, splitFirst_append k (' ' :: v) hk]

theorem isHostLine_hostline (host : Str) :
    isHostLine (ofString ("Host: ") ++ host) = true := rfl

theorem isAuthLine_hostline (host : Str) :
    isAuthLine (ofString ("Host: ") ++ host) = false := rfl

theorem countP_congr_bool {α : Type} (p q : α → Bool) :
    ∀ l : List α, (∀ a ∈ l, p a = q a) → l.countP p = l.countP q := by
  intro l
  induction l with
  | nil => intro _; rfl
  | cons a rest ih =>
    intro h
    rw [List.countP_cons, List.countP_cons, h a (List.mem_cons_self a rest),
      ih (fun x hx => h x (List.mem_cons_of_mem a hx))]

theorem countP_eq_zero_of_all {α : Type} (p : α → Bool) :
    ∀ l : List α, (∀ a ∈ l, p a = false) → l.countP p = 0 := by
  intro l
  induction l with
  | nil => intro _; rfl
  | cons a rest ih =>
    intro h
    rw [List.countP_cons, h a (List.mem_cons_self a rest),
      ih (fun x hx => h x (List.mem_cons_of_mem a hx))]
    simp

theorem contains_iff_mem {c : Char} {l : Str} : l.contains c = true ↔ c ∈ l := by
  simp [List.contains]

/-- C4: for line-shaped inputs — no CR in the base text, no CR or LF in the host
    field or bearer token — and extra headers parsed from the extra-headers text (so
    including an extra entry named Host in any letter case), the header section of
    the rendered output contains exactly one Host line, it is "Host: <host_field>",
    and it sits immediately after the request line; an extra or base header named
    Host never survives as a second Host line. -/
theorem host_line_unique (base host tok extraText : Str)
    (hb : '\r' ∉ base) (hh1 : '\r' ∉ host) (hh2 : '\n' ∉ host)
    (ht1 : '\r' ∉ tok) (ht2 : '\n' ∉ tok) :
    (headerSection (build_final_raw base host tok (parse_extra_headers extraText))).countP
        isHostLine = 1 ∧
    (headerSection (build_final_raw base host tok (parse_extra_headers extraText))).head? =
        some (ofString ("Host: ") ++ host) ∧
    (splitCrlf (build_final_raw base host tok (parse_extra_headers extraText))).get? 1 =
        some (ofString ("Host: ") ++ host) := by
  have hex := parse_extra_headers_wf extraText
  have hsec := headerSection_build base host tok _ hb hh1 hh2 ht1 ht2 hex
  have hwf := mergedHeaders_wf base tok _ hb ht1 ht2 hex
  refine ⟨?_, ?_, ?_⟩
  · rw [hsec, List.countP_cons]
    have hz : (emittedHeaderLines base tok (parse_extra_headers extraText)).countP
        isHostLine = 0 := by
      apply countP_eq_zero_of_all
      intro l hl
      obtain ⟨kv, hkv, he, hnh⟩ := emittedHeaderLines_shape hl
      subst he
      have hkcol : ':' ∉ kv.1 := (hwf kv hkv).1
      simp only [isHostLine, headerNameOf_emitted kv.1 kv.2 hkcol]
      exact beq_eq_false_iff_ne.mpr hnh
    rw [hz, isHostLine_hostline]
    rfl
  · rw [hsec]
    rfl
  · rcases splitCrlf_build_final base host tok _ hb hh1 hh2 ht1 ht2 hex with h | h
    · rw [h]
      rfl
    · rw [h]
      rfl

/-- C4 (witness): a base whose headers contain a Host header, extra-headers text
    declaring HOST (upper case), a token — the output has exactly one Host line. -/
theorem host_line_unique_witness :
    (headerSection (build_final_raw (ofString ("GET / HTTP/1.1\nHost: stale.example\nAccept: x\n\n"))
        (ofString ("fresh.example")) (ofString ("tk"))
        (parse_extra_headers (ofString ("HOST: evil.example\nX-Debug: 1"))))).countP
        isHostLine = 1 ∧
    (headerSection (build_final_raw (ofString ("GET / HTTP/1.1\nHost: stale.example\nAccept: x\n\n"))
        (ofString ("fresh.example")) (ofString ("tk"))
        (parse_extra_headers (ofString ("HOST: evil.example\nX-Debug: 1"))))).head? =
        some (ofString ("Host: ") ++ ofString ("fresh.example")) ∧
    (splitCrlf (build_final_raw (ofString ("GET / HTTP/1.1\nHost: stale.example\nAccept: x\n\n"))
        (ofString ("fresh.example")) (ofString ("tk"))
        (parse_extra_headers (ofString ("HOST: evil.example\nX-Debug: 1"))))).get? 1 =
        some (ofString ("Host: ") ++ ofString ("fresh.example")) :=
  host_line_unique (ofString ("GET / HTTP/1.1\nHost: stale.example\nAccept: x\n\n"))
    (ofString ("fresh.example")) (ofString ("tk")) (ofString ("HOST: evil.example\nX-Debug: 1"))
    (by decide) (by decide) (by decide) (by decide) (by decide)

/-- C5: rendering with an empty bearer token and no extra headers leaves the request
    line (the base's first line) as line 0 of the output and puts "Host: <host>" —
    the literal host argument — as line 1. -/
theorem render_no_token_no_extras (base host : Str)
    (hb : '\r' ∉ base) (hh1 : '\r' ∉ host) (hh2 : '\n' ∉ host) :
    (splitCrlf (build_final_raw base host [] [])).get? 0 = some (baseRequestLine base) ∧
    (splitCrlf (build_final_raw base host [] [])).get? 1 =
      some (ofString ("Host: ") ++ host) := by
  have hex : HdrWF ([] : List (Str × Str)) := fun kv hkv => absurd hkv (List.not_mem_nil kv)
  rcases splitCrlf_build_final base host [] [] hb hh1 hh2 (by simp) (by simp) hex with h | h
  · rw [h]
    exact ⟨rfl, rfl⟩
  · rw [h]
    exact ⟨rfl, rfl⟩

/-- C5 (witness): rendering a concrete base with host h.example, no token and no
    extras keeps the request line and injects the literal Host line. -/
theorem render_no_token_no_extras_witness :
    (splitCrlf (build_final_raw (ofString ("GET /v1 HTTP/1.1\nAccept: x\n\n"))
        (ofString ("h.example")) [] [])).get? 0 =
      some (baseRequestLine (ofString ("GET /v1 HTTP/1.1\nAccept: x\n\n"))) ∧
    (splitCrlf (build_final_raw (ofString ("GET /v1 HTTP/1.1\nAccept: x\n\n"))
        (ofString ("h.example")) [] [])).get? 1 =
      some (ofString ("Host: ") ++ ofString ("h.example")) :=
  render_no_token_no_extras (ofString ("GET /v1 HTTP/1.1\nAccept: x\n\n"))
    (ofString ("h.example")) (by decide) (by decide) (by decide)

/-! C10: colon-free base header lines are dropped. -/

theorem splitFirst_none_not_mem {sep : Char} : ∀ s : Str, splitFirst sep s = none → sep ∉ s := by
  intro s
  induction s with
  | nil => intro _; simp
  | cons c rest ih =>
    intro h hm
    by_cases hc : c = sep
    · rw [splitFirst, if_pos hc] at h
      simp at h
    · rw [splitFirst, if_neg hc] at h
      rcases List.mem_cons.mp hm with e | m
      · exact hc e.symm
      · cases h2 : splitFirst sep rest with
        | none => exact ih h2 m
        | some p =>
          rw [h2] at h
          simp at h

theorem parseHeaderLines_filter :
    ∀ (ls : List Str) (m : List (Str × Str)),
      ls.foldl (fun m h =>
        match splitFirst ':' h with
        | some kv => alSet m (pyStrip kv.1) (pyStrip kv.2)
        | none => m) m =
      (ls.filter (fun l => l.contains ':')).foldl (fun m h =>
        match splitFirst ':' h with
        | some kv => alSet m (pyStrip kv.1) (pyStrip kv.2)
        | none => m) m := by
  intro ls
  induction ls with
  | nil => intro m; rfl
  | cons h rest ih =>
    intro m
    cases hs : splitFirst ':' h with
    | none =>
      have hnm : ':' ∉ h := splitFirst_none_not_mem h hs
      have hnc : h.contains ':' = false := by
        cases hcb : h.contains ':' with
        | false => rfl
        | true => exact absurd (contains_iff_mem.mp hcb) hnm
      rw [show List.filter (fun l => l.contains ':') (h :: rest) =
          List.filter (fun l => l.contains ':') rest from by simp [List.filter_cons, hnm]]
      simp only [List.foldl_cons, hs]
      exact ih m
    | some kv =>
      have hc : h.contains ':' = true := by
        apply contains_iff_mem.mpr
        have hsh := splitFirst_shape h kv.1 kv.2 hs
        rw [hsh.1]
        exact List.mem_append.mpr (Or.inr (List.mem_cons_self ':' kv.2))
      rw [show List.filter (fun l => l.contains ':') (h :: rest) =
          h :: List.filter (fun l => l.contains ':') rest from by
        simp [List.filter_cons, contains_iff_mem.mp hc]]
      simp only [List.foldl_cons, hs]
      exact ih _

/-- C10: a base header line with no colon enters neither the parsed header mapping
    (parsing a line list equals parsing its colon-containing sublist) nor the header
    section of the rendered output (whose every line contains a colon). -/
theorem colon_free_header_lines_dropped (base host tok extraText : Str)
    (hb : '\r' ∉ base) (hh1 : '\r' ∉ host) (hh2 : '\n' ∉ host)
    (ht1 : '\r' ∉ tok) (ht2 : '\n' ∉ tok) :
    parseHeaderLines (baseHeadersPart base) =
      parseHeaderLines ((baseHeadersPart base).filter (fun l => l.contains ':')) ∧
    ∀ l ∈ headerSection (build_final_raw base host tok (parse_extra_headers extraText)),
      l.contains ':' = true := by
  constructor
  · simp only [parseHeaderLines]
    exact parseHeaderLines_filter (baseHeadersPart base) []
  · have hex := parse_extra_headers_wf extraText
    rw [headerSection_build base host tok _ hb hh1 hh2 ht1 ht2 hex]
    intro l hl
    rcases List.mem_cons.mp hl with e | m
    · subst e
      apply contains_iff_mem.mpr
      exact List.mem_append.mpr (Or.inl (by decide))
    · obtain ⟨kv, _, he, _⟩ := emittedHeaderLines_shape m
      subst he
      apply contains_iff_mem.mpr
      exact List.mem_append.mpr (Or.inl (List.mem_append.mpr (Or.inr (by decide))))

/-- C10 (witness): rendering a base with a colon-free header line: the parsed map
    ignores it and every header-section line of the output contains a colon. -/
theorem colon_free_header_lines_dropped_witness :
    parseHeaderLines (baseHeadersPart (ofString ("GET / HTTP/1.1\nmalformed-line\nAccept: x\n\n"))) =
      parseHeaderLines ((baseHeadersPart
        (ofString ("GET / HTTP/1.1\nmalformed-line\nAccept: x\n\n"))).filter
        (fun l => l.contains ':')) ∧
    ∀ l ∈ headerSection (build_final_raw
        (ofString ("GET / HTTP/1.1\nmalformed-line\nAccept: x\n\n"))
        (ofString ("h.example")) (ofString ("tk")) (parse_extra_headers (ofString ("X-Debug: 1")))),
      l.contains ':' = true :=
  colon_free_header_lines_dropped (ofString ("GET / HTTP/1.1\nmalformed-line\nAccept: x\n\n"))
    (ofString ("h.example")) (ofString ("tk")) (ofString ("X-Debug: 1"))
    (by decide) (by decide) (by decide) (by decide) (by decide)



/-! C6: Authorization injection — supporting lemmas. -/

theorem parseHeaderLines_nodup (ls : List Str) :
    ((parseHeaderLines ls).map Prod.fst).Nodup := by
  simp only [parseHeaderLines]
  apply foldl_preserve_mem (fun m : List (Str × Str) => (m.map Prod.fst).Nodup)
  · intro h _ m hm
    dsimp only
    cases hs : splitFirst ':' h with
    | none => exact hm
    | some kv => exact alSet_keys_nodup m _ _ hm
  · simp

theorem foldl_extras_mem (k0 : Str) (v0 : Str) :
    ∀ (extras : List (Str × Str)) (m : List (Str × Str)),
      (k0, v0) ∈ m → (∀ kv ∈ extras, kv.1 ≠ k0) →
      (k0, v0) ∈ extras.foldl (fun m kv =>
        if pyLower kv.1 = ofString ("host") then m else alSet m kv.1 kv.2) m := by
  intro extras
  induction extras with
  | nil => intro m hm _; exact hm
  | cons kv rest ih =>
    intro m hm hall
    rw [List.foldl_cons]
    apply ih
    · split
      · exact hm
      · exact alSet_mem_of_ne m kv.1 k0 kv.2 v0 hm
          (hall kv (List.mem_cons_self kv rest)).symm
    · exact fun x hx => hall x (List.mem_cons_of_mem kv hx)

theorem foldl_extras_keys_countP (p : Str → Bool) :
    ∀ (extras : List (Str × Str)) (m : List (Str × Str)),
      (∀ kv ∈ extras, p kv.1 = false) →
      ((extras.foldl (fun m kv =>
          if pyLower kv.1 = ofString ("host") then m else alSet m kv.1 kv.2) m).map
        Prod.fst).countP p = (m.map Prod.fst).countP p := by
  intro extras
  induction extras with
  | nil => intro m _; rfl
  | cons kv rest ih =>
    intro m hall
    rw [List.foldl_cons, ih _ (fun x hx => hall x (List.mem_cons_of_mem kv hx))]
    split
    · rfl
    · rw [alSet_keys]
      split
      · rfl
      · rw [List.countP_append]
        have : List.countP p [kv.1] = 0 := by
          rw [List.countP_cons]
          simp [hall kv (List.mem_cons_self kv rest)]
        rw [this]
        simp

theorem countP_filter_of_imp {α : Type} (p q : α → Bool) :
    ∀ l : List α, (∀ a ∈ l, p a = true → q a = true) →
      (l.filter q).countP p = l.countP p := by
  intro l
  induction l with
  | nil => intro _; rfl
  | cons a rest ih =>
    intro h
    cases hq : q a with
    | true =>
      rw [show List.filter q (a :: rest) = a :: List.filter q rest from by
          simp [List.filter_cons, hq],
        List.countP_cons, List.countP_cons,
        ih (fun x hx => h x (List.mem_cons_of_mem a hx))]
    | false =>
      have hp : p a = false := by
        cases hpb : p a with
        | false => rfl
        | true => rw [h a (List.mem_cons_self a rest) hpb] at hq; exact absurd hq (by simp)
      rw [show List.filter q (a :: rest) = List.filter q rest from by
          simp [List.filter_cons, hq],
        List.countP_cons, hp,
        ih (fun x hx => h x (List.mem_cons_of_mem a hx))]
      simp

theorem countP_beq_eq_one_of_nodup_mem {a : Str} :
    ∀ l : List Str, l.Nodup → a ∈ l → l.countP (fun k => k == a) = 1 := by
  intro l
  induction l with
  | nil => intro _ h; simp at h
  | cons x rest ih =>
    intro hnd hm
    have hnd2 := List.nodup_cons.mp hnd
    rw [List.countP_cons]
    rcases List.mem_cons.mp hm with e | m
    · subst e
      rw [countP_eq_zero_of_all _ rest
        (fun y hy => beq_eq_false_iff_ne.mpr (fun e2 => hnd2.1 (by rw [← e2]; exact hy)))]
      simp
    · have hx : x ≠ a := fun e => hnd2.1 (e ▸ m)
      rw [ih hnd2.2 m]
      simp [beq_eq_false_iff_ne.mpr hx]

theorem countP_auth_alSet (m : List (Str × Str)) (v : Str)
    (hnd : (m.map Prod.fst).Nodup)
    (hauth : ∀ kv ∈ m, pyLower kv.1 = ofString ("authorization") →
      kv.1 = ofString ("Authorization")) :
    ((alSet m (ofString ("Authorization")) v).map Prod.fst).countP
      (fun k => pyLower k == ofString ("authorization")) = 1 := by
  rw [alSet_keys]
  by_cases hmem : ofString ("Authorization") ∈ m.map Prod.fst
  · rw [if_pos hmem]
    have he : (m.map Prod.fst).countP (fun k => pyLower k == ofString ("authorization")) =
        (m.map Prod.fst).countP (fun k => k == ofString ("Authorization")) := by
      apply countP_congr_bool
      intro k hk
      obtain ⟨kv, hkv, hkve⟩ := List.mem_map.mp hk
      by_cases hlow : pyLower k = ofString ("authorization")
      · have : k = ofString ("Authorization") :=
          hkve ▸ hauth kv hkv (by rw [hkve]; exact hlow)
        rw [beq_iff_eq.mpr hlow, beq_iff_eq.mpr this]
      · have hne : k ≠ ofString ("Authorization") := by
          intro e
          exact hlow (by rw [e]; rfl)
        rw [beq_eq_false_iff_ne.mpr hlow, beq_eq_false_iff_ne.mpr hne]
    rw [he]
    exact countP_beq_eq_one_of_nodup_mem _ hnd hmem
  · rw [if_neg hmem, List.countP_append]
    have h0 : (m.map Prod.fst).countP (fun k => pyLower k == ofString ("authorization")) = 0 := by
      apply countP_eq_zero_of_all
      intro k hk
      apply beq_eq_false_iff_ne.mpr
      intro hlow
      obtain ⟨kv, hkv, hkve⟩ := List.mem_map.mp hk
      have hA : kv.1 = ofString ("Authorization") := hauth kv hkv (by rw [hkve]; exact hlow)
      apply hmem
      rw [← hA]
      exact List.mem_map_of_mem Prod.fst hkv
    rw [h0]
    decide



/-- C6 (amended): the Authorization override is case-sensitive. With a non-empty
    bearer token, when every base header whose name lowercases to authorization is
    spelled exactly "Authorization" and no extra header is named authorization in any
    letter case, the rendered header section contains exactly one
    Authorization-named line and it is "Authorization: Bearer <token>". A sampled
    header spelled in a different case (e.g. "authorization") would NOT be
    overridden — see the counterexample. -/
theorem auth_override_exact_case (base host tok extraText : Str)
    (hb : '\r' ∉ base) (hh1 : '\r' ∉ host) (hh2 : '\n' ∉ host)
    (ht1 : '\r' ∉ tok) (ht2 : '\n' ∉ tok) (htok : tok ≠ [])
    (hbase_auth : ∀ kv ∈ parseHeaderLines (baseHeadersPart base),
      pyLower kv.1 = ofString ("authorization") → kv.1 = ofString ("Authorization"))
    (hex_auth : ∀ kv ∈ parse_extra_headers extraText,
      pyLower kv.1 ≠ ofString ("authorization")) :
    (headerSection (build_final_raw base host tok (parse_extra_headers extraText))).countP
        isAuthLine = 1 ∧
    (ofString ("Authorization: Bearer ") ++ tok) ∈
      headerSection (build_final_raw base host tok (parse_extra_headers extraText)) := by
  have hex := parse_extra_headers_wf extraText
  have hsec := headerSection_build base host tok _ hb hh1 hh2 ht1 ht2 hex
  have hwf := mergedHeaders_wf base tok _ hb ht1 ht2 hex
  have htokE : tok.isEmpty = false := by
    cases tok with
    | nil => exact absurd rfl htok
    | cons c r => rfl
  have hmh : mergedHeaders base tok (parse_extra_headers extraText) =
      (parse_extra_headers extraText).foldl (fun m kv =>
        if pyLower kv.1 = ofString ("host") then m else alSet m kv.1 kv.2)
        (alSet (parseHeaderLines (baseHeadersPart base)) (ofString ("Authorization"))
          (ofString ("Bearer ") ++ tok)) := by
    simp [mergedHeaders, htokE]
  constructor
  · rw [hsec, List.countP_cons, isAuthLine_hostline]
    have e1 : (emittedHeaderLines base tok (parse_extra_headers extraText)).countP isAuthLine
        = ((mergedHeaders base tok (parse_extra_headers extraText)).filter
            (fun kv => pyLower kv.1 != ofString ("host"))).countP
            (fun kv => pyLower kv.1 == ofString ("authorization")) := by
      simp only [emittedHeaderLines, List.countP_map]
      apply countP_congr_bool
      intro kv hkv
      have hkv2 := List.mem_filter.mp hkv
      have hkcol : ':' ∉ kv.1 := (hwf kv hkv2.1).1
      show isAuthLine (kv.1 ++ ofString (": ") ++ kv.2) =
        (pyLower kv.1 == ofString ("authorization"))
      simp only [isAuthLine, headerNameOf_emitted kv.1 kv.2 hkcol]
    rw [e1, countP_filter_of_imp _ _ _ (by
      intro kv _ hp
      have hpl : pyLower kv.1 = ofString ("authorization") := beq_iff_eq.mp hp
      apply bne_iff_ne.mpr
      rw [hpl]
      decide)]
    have e2 : (mergedHeaders base tok (parse_extra_headers extraText)).countP
        (fun kv => pyLower kv.1 == ofString ("authorization")) =
        ((mergedHeaders base tok (parse_extra_headers extraText)).map Prod.fst).countP
        (fun k => pyLower k == ofString ("authorization")) := by
      rw [List.countP_map]
      rfl
    rw [e2, hmh, foldl_extras_keys_countP _ _ _ (by
      intro kv hkv
      exact beq_eq_false_iff_ne.mpr (hex_auth kv hkv)),
      countP_auth_alSet _ _ (parseHeaderLines_nodup _) hbase_auth]
    simp
  · have hkne : ∀ kv ∈ parse_extra_headers extraText, kv.1 ≠ ofString ("Authorization") := by
      intro kv hkv e
      apply hex_auth kv hkv
      rw [e]
      rfl
    have hmem0 : (ofString ("Authorization"), ofString ("Bearer ") ++ tok) ∈
        alSet (parseHeaderLines (baseHeadersPart base)) (ofString ("Authorization"))
          (ofString ("Bearer ") ++ tok) := alSet_mem_self _ _ _
    have hmem1 := foldl_extras_mem (ofString ("Authorization")) (ofString ("Bearer ") ++ tok)
      (parse_extra_headers extraText) _ hmem0 hkne
    rw [← hmh] at hmem1
    have hmemf : (ofString ("Authorization"), ofString ("Bearer ") ++ tok) ∈
        (mergedHeaders base tok (parse_extra_headers extraText)).filter
          (fun kv => pyLower kv.1 != ofString ("host")) := by
      apply List.mem_filter.mpr
      refine ⟨hmem1, ?_⟩
      show (pyLower (ofString ("Authorization")) != ofString ("host")) = true
      decide
    have hmeme := List.mem_map_of_mem
      (fun kv : Str × Str => kv.1 ++ ofString (": ") ++ kv.2) hmemf
    rw [hsec]
    exact List.mem_cons_of_mem _ hmeme

/-- C6 (counterexample): a base whose sampled Authorization header is spelled in
    lower case is NOT overridden by the bearer-token injection — the rendered header
    section keeps the sampled "authorization: Basic abc" line AND gains a second
    "Authorization: Bearer t" line, so the output's Authorization header is not
    exactly "Bearer t" as the claim states for any letter case. -/
theorem auth_override_lowercase_cex :
    headerSection (build_final_raw
        (ofString ("GET / HTTP/1.1\nauthorization: Basic abc\n\n"))
        (ofString ("h")) (ofString ("t")) []) =
      [ofString ("Host: h"), ofString ("authorization: Basic abc"),
       ofString ("Authorization: Bearer t")] ∧
    (headerSection (build_final_raw
        (ofString ("GET / HTTP/1.1\nauthorization: Basic abc\n\n"))
        (ofString ("h")) (ofString ("t")) [])).countP isAuthLine = 2 :=
  ⟨rfl, rfl⟩

/-- C6 (witness): a base with an exactly-spelled Authorization header, a token and
    benign extra headers — exactly one Authorization line, with the Bearer value. -/
theorem auth_override_exact_case_witness :
    (headerSection (build_final_raw
        (ofString ("GET / HTTP/1.1\nAuthorization: Basic abc\nAccept: x\n\n"))
        (ofString ("h.example")) (ofString ("tok123"))
        (parse_extra_headers (ofString ("X-Debug: 1"))))).countP isAuthLine = 1 ∧
    (ofString ("Authorization: Bearer ") ++ ofString ("tok123")) ∈
      headerSection (build_final_raw
        (ofString ("GET / HTTP/1.1\nAuthorization: Basic abc\nAccept: x\n\n"))
        (ofString ("h.example")) (ofString ("tok123"))
        (parse_extra_headers (ofString ("X-Debug: 1")))) :=
  auth_override_exact_case
    (ofString ("GET / HTTP/1.1\nAuthorization: Basic abc\nAccept: x\n\n"))
    (ofString ("h.example")) (ofString ("tok123")) (ofString ("X-Debug: 1"))
    (by decide) (by decide) (by decide) (by decide) (by decide) (by decide)
    (by decide) (by decide)



/-! C7: the query string and the URL encoder. -/

theorem mem_pyJoin (sep : Str) :
    ∀ (ls : List Str) (c : Char), c ∈ pyJoin sep ls → c ∈ sep ∨ ∃ l ∈ ls, c ∈ l := by
  intro ls
  induction ls with
  | nil => intro c h; simp [pyJoin] at h
  | cons l rest ih =>
    intro c h
    cases rest with
    | nil =>
      right
      exact ⟨l, List.mem_cons_self l [], h⟩
    | cons l2 rest2 =>
      rw [pyJoin_cons sep l (l2 :: rest2) (by simp)] at h
      rcases List.mem_append.mp h with m | m
      · rcases List.mem_append.mp m with m2 | m2
        · exact Or.inr ⟨l, List.mem_cons_self l _, m2⟩
        · exact Or.inl m2
      · rcases ih c m with hs | ⟨x, hx, hcx⟩
        · exact Or.inl hs
        · exact Or.inr ⟨x, List.mem_cons_of_mem l hx, hcx⟩

theorem hexDigit_ne_space (n : Nat) : hexDigit n ≠ ' ' := by
  simp only [hexDigit, List.getD]
  cases h : (ofString ("0123456789ABCDEF")).get? n with
  | none => simp
  | some x =>
    have hx : x ∈ ofString ("0123456789ABCDEF") := List.get?_mem h
    have hall : ∀ y ∈ ofString ("0123456789ABCDEF"), y ≠ ' ' := by decide
    simp only [h, Option.getD_some]
    exact hall x hx

theorem space_not_in_javaUrlEncode (s : Str) : ' ' ∉ javaUrlEncode s := by
  intro h
  simp only [javaUrlEncode] at h
  rw [List.mem_flatten] at h
  obtain ⟨piece, hpiece, hmem⟩ := h
  rw [List.mem_map] at hpiece
  obtain ⟨c, _, hc⟩ := hpiece
  subst hc
  by_cases hsafe : urlSafeChar c = true
  · rw [if_pos hsafe] at hmem
    simp only [List.mem_singleton] at hmem
    rw [← hmem] at hsafe
    exact absurd hsafe (by decide)
  · rw [if_neg hsafe] at hmem
    by_cases hsp : c = ' '
    · rw [if_pos hsp] at hmem
      simp at hmem
    · rw [if_neg hsp] at hmem
      rw [List.mem_flatten] at hmem
      obtain ⟨piece2, hpiece2, hmem2⟩ := hmem
      rw [List.mem_map] at hpiece2
      obtain ⟨b, _, hb⟩ := hpiece2
      subst hb
      rcases List.mem_cons.mp hmem2 with e | m
      · exact absurd e.symm (by decide)
      · rcases List.mem_cons.mp m with e | m2
        · exact hexDigit_ne_space _ e.symm
        · rcases List.mem_cons.mp m2 with e | m3
          · exact hexDigit_ne_space _ e.symm
          · simp at m3

/-- C7 (amended): the query string is omitted entirely when there are no query
    parameters; otherwise it is '?' followed by the &-joined url-encoded k=v pairs,
    and it never contains a raw space — but the platform URL encoder represents a
    space as '+', not %20 (see the counterexample; the %20 fallback runs only when
    java.net is unavailable). -/
theorem query_string_shape (qp : List (JVal × JVal)) :
    (qp = [] → buildQueryString qp = []) ∧
    (qp ≠ [] → buildQueryString qp =
        '?' :: pyJoin ['&']
          (qp.map (fun p => url_encode (pyStr p.1) ++ '=' :: url_encode (pyStr p.2))) ∧
      ' ' ∉ buildQueryString qp) := by
  constructor
  · intro h
    subst h
    rfl
  · intro h
    cases qp with
    | nil => exact absurd rfl h
    | cons a t =>
      refine ⟨rfl, ?_⟩
      intro hmem
      have hq : buildQueryString (a :: t) = '?' :: pyJoin ['&']
          ((a :: t).map (fun p => url_encode (pyStr p.1) ++ '=' :: url_encode (pyStr p.2))) :=
        rfl
      rw [hq] at hmem
      rcases List.mem_cons.mp hmem with e | m
      · exact absurd e (by decide)
      · rcases mem_pyJoin ['&'] _ ' ' m with hs | ⟨l, hl, hcl⟩
        · simp at hs
        · rw [List.mem_map] at hl
          obtain ⟨p, _, hp⟩ := hl
          subst hp
          rcases List.mem_append.mp hcl with m2 | m2
          · exact space_not_in_javaUrlEncode _ m2
          · rcases List.mem_cons.mp m2 with e | m3
            · exact absurd e (by decide)
            · exact space_not_in_javaUrlEncode _ m3

/-- C7 (witness): one query parameter q with sampled value "a b" yields exactly the
    '?'-prefixed, &-joined, url-encoded pair list, with no raw space. -/
theorem query_string_shape_witness :
    buildQueryString [(JVal.str (ofString ("q")), JVal.str (ofString ("a b")))] =
        '?' :: pyJoin ['&']
          ([(JVal.str (ofString ("q")), JVal.str (ofString ("a b")))].map
            (fun p => url_encode (pyStr p.1) ++ '=' :: url_encode (pyStr p.2))) ∧
    ' ' ∉ buildQueryString [(JVal.str (ofString ("q")), JVal.str (ofString ("a b")))] :=
  (query_string_shape [(JVal.str (ofString ("q")), JVal.str (ofString ("a b")))]).2
    (List.cons_ne_nil _ _)

/-- C7 (counterexample): the space in a sampled query value is encoded as '+', not as
    %20 — concretely, the one-parameter operation GET /s with query parameter q whose
    example is "a b" generates the request line "GET /s?q=a+b HTTP/1.1", and the
    produced query string contains no %20 at all. -/
theorem query_space_encoded_as_plus :
    buildQueryString [(JVal.str (ofString ("q")), JVal.str (ofString ("a b")))] =
      ofString ("?q=a+b") ∧
    substr (ofString ("%20"))
      (buildQueryString [(JVal.str (ofString ("q")), JVal.str (ofString ("a b")))]) = false ∧
    (parse_and_generate 20
      (JVal.obj [(ofString ("paths"), JVal.obj
        [(ofString ("/s"), JVal.obj
          [(ofString ("get"), JVal.obj
            [(ofString ("parameters"), JVal.arr
              [JVal.obj [(ofString ("name"), JVal.str (ofString ("q"))),
                         (ofString ("in"), JVal.str (ofString ("query"))),
                         (ofString ("example"), JVal.str (ofString ("a b")))]])])])])])).map
      (fun l => l.map (fun e => (splitChar '\n' e.raw_base).headD []))
      = .ok [ofString ("GET /s?q=a+b HTTP/1.1")] :=
  ⟨rfl, rfl, rfl⟩

/-! C8: a parameter whose example key holds null falls back to schema sampling. -/

/-- C8 (amended): after $ref resolution, the sampled parameter value is the literal
    example only when the example key holds a non-None value; when the key is absent
    OR its value is null — p.get("example") is None in both cases — the value is
    SchemaSampler.sample of the parameter's schema. -/
theorem bindOk {α β ε : Type} (a : α) (f : α → Except ε β) :
    (Except.ok a >>= f) = f a := rfl

theorem param_value_example_or_sample (fuel : Nat) (spec : JVal) (kvs : List (Str × JVal))
    (href : alGet kvs (ofString ("$ref")) = none) :
    (∀ ev, alGet kvs (ofString ("example")) = some ev → ev ≠ JVal.null →
      paramStep fuel spec (JVal.obj kvs) =
        .ok (alGetD kvs (ofString ("name")) JVal.null,
             alGetD kvs (ofString ("in")) JVal.null, ev)) ∧
    (alGetD kvs (ofString ("example")) JVal.null = JVal.null →
      paramStep fuel spec (JVal.obj kvs) =
        (simple_sample_from_schema spec fuel (paramSchemaOf kvs)).map (fun r =>
          (alGetD kvs (ofString ("name")) JVal.null,
           alGetD kvs (ofString ("in")) JVal.null, r))) := by
  have hres : resolveParamRef spec (JVal.obj kvs) = .ok (JVal.obj kvs) := by
    simp [resolveParamRef, href]
  constructor
  · intro ev hev hne
    have hgd : alGetD kvs (ofString ("example")) JVal.null = ev := by
      simp [alGetD, hev]
    simp only [paramStep, hres, pyGetE, bindOk]
    rw [hgd]
    cases ev with
    | null => exact absurd rfl hne
    | bool b => rfl
    | int i => rfl
    | str s => rfl
    | arr xs => rfl
    | obj o => rfl
  · intro hnull
    simp only [paramStep, hres, pyGetE, bindOk]
    rw [hnull]
    cases hs : simple_sample_from_schema spec fuel (paramSchemaOf kvs) with
    | ok r => rfl
    | error e => rfl

/-- C8 (witness): a parameter with a non-null literal example takes that example
    verbatim. -/
theorem param_value_example_witness :
    paramStep 5 (JVal.obj [])
      (JVal.obj [(ofString ("name"), JVal.str (ofString ("x"))),
                 (ofString ("in"), JVal.str (ofString ("query"))),
                 (ofString ("example"), JVal.int 7)]) =
      .ok (JVal.str (ofString ("x")), JVal.str (ofString ("query")), JVal.int 7) :=
  (param_value_example_or_sample 5 (JVal.obj [])
      [(ofString ("name"), JVal.str (ofString ("x"))),
       (ofString ("in"), JVal.str (ofString ("query"))),
       (ofString ("example"), JVal.int 7)] rfl).1
    (JVal.int 7) rfl (fun h => JVal.noConfusion h)

/-- C8 (counterexample): a parameter carrying the literal example null is NOT sampled
    to null — p.get("example") is None for a null example, so the code falls through
    to schema sampling and produces 1 for the integer schema, refuting the claim that
    a present example key is used even when its value is null. -/
theorem param_null_example_ignored :
    paramStep 20 (JVal.obj [])
      (JVal.obj [(ofString ("name"), JVal.str (ofString ("x"))),
                 (ofString ("in"), JVal.str (ofString ("query"))),
                 (ofString ("schema"), JVal.obj [(ofString ("type"), JVal.str (ofString ("integer")))]),
                 (ofString ("example"), JVal.null)]) =
      .ok (JVal.str (ofString ("x")), JVal.str (ofString ("query")), JVal.int 1) ∧
    alGet [(ofString ("name"), JVal.str (ofString ("x"))),
           (ofString ("in"), JVal.str (ofString ("query"))),
           (ofString ("schema"), JVal.obj [(ofString ("type"), JVal.str (ofString ("integer")))]),
           (ofString ("example"), JVal.null)] (ofString ("example")) = some JVal.null ∧
    JVal.int 1 ≠ JVal.null :=
  ⟨rfl, rfl, fun h => JVal.noConfusion h⟩



/-! C1: totality of the sampler on well-shaped nodes; it DOES raise on malformed ones. -/

theorem list_sizeOf_pos (l : List (Str × JVal)) : 1 ≤ sizeOf l := by
  cases l <;> simp_arith

theorem alGet_sizeOf_lt :
    ∀ (kvs : List (Str × JVal)) (k : Str) (v : JVal),
      alGet kvs k = some v → sizeOf v < sizeOf kvs := by
  intro kvs
  induction kvs with
  | nil => intro k v h; simp [alGet] at h
  | cons p rest ih =>
    intro k v h
    simp only [alGet] at h
    by_cases hp : p.1 = k
    · rw [if_pos hp] at h
      have hv := Option.some.inj h
      subst hv
      cases p with
      | mk a b => simp; omega
    · rw [if_neg hp] at h
      have h1 := ih k v h
      have h2 : sizeOf rest < sizeOf (p :: rest) := by simp
      omega

theorem mem_sizeOf_lt :
    ∀ (pkvs : List (Str × JVal)) (p : Str × JVal),
      p ∈ pkvs → sizeOf p.2 < sizeOf pkvs := by
  intro pkvs
  induction pkvs with
  | nil => intro p h; simp at h
  | cons q rest ih =>
    intro p h
    rcases List.mem_cons.mp h with e | m
    · subst e
      cases p with
      | mk a b => simp; omega
    · have h1 := ih p m
      have h2 : sizeOf rest < sizeOf (q :: rest) := by simp
      omega

theorem sample_defaultItems (spec : JVal) (k : Nat) :
    simple_sample_from_schema spec (Nat.succ k) defaultItems =
      Except.ok (JVal.str (ofString ("example"))) := rfl

theorem mapM_sample_ok (spec : JVal) (n : Nat) :
    ∀ (pkvs : List (Str × JVal)),
      (∀ p ∈ pkvs, ∃ r, simple_sample_from_schema spec n p.2 = Except.ok r) →
      ∃ out, pkvs.mapM (fun p =>
        (simple_sample_from_schema spec n p.2).map (fun r => (p.1, r))) = Except.ok out := by
  intro pkvs
  induction pkvs with
  | nil => intro _; exact ⟨[], rfl⟩
  | cons q rest ih =>
    intro h
    obtain ⟨r, hr⟩ := h q (List.mem_cons_self q rest)
    obtain ⟨out, hout⟩ := ih (fun p hp => h p (List.mem_cons_of_mem q hp))
    refine ⟨(q.1, r) :: out, ?_⟩
    rw [List.mapM_cons]
    simp only [hr, hout]
    rfl

theorem sampleTotalAux (spec : JVal) :
    ∀ (v : JVal), SWF v → ∀ (n : Nat), sizeOf v < n →
      ∃ r, simple_sample_from_schema spec n v = Except.ok r := by
  intro v hswf
  induction hswf with
  | of_falsy w hf =>
    intro n hn
    cases n with
    | zero => omega
    | succ m =>
      exact ⟨.null, by simp only [simple_sample_from_schema]; rw [if_pos hf]⟩
  | of_dict kvs href hitems hshape hprops ih_items ih_props =>
    intro n hn
    cases n with
    | zero => omega
    | succ m =>
      by_cases ht : truthy (JVal.obj kvs) = false
      · exact ⟨.null, by simp only [simple_sample_from_schema]; rw [if_pos ht]⟩
      · have hsz : sizeOf (JVal.obj kvs) = 1 + sizeOf kvs := by simp
        have hm : sizeOf kvs < m := by omega
        cases hex : alGet kvs (ofString ("example")) with
        | some v =>
          exact ⟨v, by
            simp only [simple_sample_from_schema, href, hex]
            rw [if_neg ht]⟩
        | none =>
        cases hdef : alGet kvs (ofString ("default")) with
        | some v =>
          exact ⟨v, by
            simp only [simple_sample_from_schema, href, hex, hdef]
            rw [if_neg ht]⟩
        | none =>
        cases het : effectiveType kvs with
        | error v =>
          exact ⟨v, by
            simp only [simple_sample_from_schema, href, hex, hdef, het]
            rw [if_neg ht]⟩
        | ok t =>
        simp only [simple_sample_from_schema, href, hex, hdef, het]
        rw [if_neg ht]
        by_cases h1 : jeqStr t (ofString ("string")) = true
        · exact ⟨sampleString kvs, by rw [if_pos h1]⟩
        · rw [if_neg h1]
          by_cases h2 : (jeqStr t (ofString ("integer")) || jeqStr t (ofString ("number"))) = true
          · exact ⟨sampleNumeric kvs, by rw [if_pos h2]⟩
          · rw [if_neg h2]
            by_cases h3 : jeqStr t (ofString ("boolean")) = true
            · exact ⟨.bool false, by rw [if_pos h3]⟩
            · rw [if_neg h3]
              by_cases h4 : jeqStr t (ofString ("array")) = true
              · rw [if_pos h4]
                cases hit : alGet kvs (ofString ("items")) with
                | some it =>
                  have hgd : alGetD kvs (ofString ("items")) defaultItems = it := by
                    simp [alGetD, hit]
                  have hlt : sizeOf it < m := by
                    have := alGet_sizeOf_lt kvs (ofString ("items")) it hit
                    omega
                  obtain ⟨r, hr⟩ := ih_items it hit m hlt
                  refine ⟨.arr [r], ?_⟩
                  rw [hgd, hr]
                  rfl
                | none =>
                  have hgd : alGetD kvs (ofString ("items")) defaultItems = defaultItems := by
                    simp [alGetD, hit]
                  have hk1 := list_sizeOf_pos kvs
                  cases m with
                  | zero => omega
                  | succ k =>
                    refine ⟨.arr [.str (ofString ("example"))], ?_⟩
                    rw [hgd, sample_defaultItems spec k]
                    rfl
              · rw [if_neg h4]
                by_cases h5 : jeqStr t (ofString ("object")) = true
                · rw [if_pos h5]
                  cases hpr : alGet kvs (ofString ("properties")) with
                  | none =>
                    have hgd : alGetD kvs (ofString ("properties")) (JVal.obj [])
                        = JVal.obj [] := by simp [alGetD, hpr]
                    rw [hgd]
                    exact ⟨.obj [], rfl⟩
                  | some pv =>
                    cases pv with
                    | null => simp [propsShapeOk, hpr] at hshape
                    | bool b => simp [propsShapeOk, hpr] at hshape
                    | int i => simp [propsShapeOk, hpr] at hshape
                    | str s => simp [propsShapeOk, hpr] at hshape
                    | arr xs => simp [propsShapeOk, hpr] at hshape
                    | obj pkvs =>
                      have hgd : alGetD kvs (ofString ("properties")) (JVal.obj [])
                          = JVal.obj pkvs := by simp [alGetD, hpr]
                      have hpl : propsList kvs = pkvs := by simp [propsList, hpr]
                      have hcall : ∀ p ∈ pkvs, ∃ r,
                          simple_sample_from_schema spec m p.2 = Except.ok r := by
                        intro p hp
                        have hp2 : p ∈ propsList kvs := by rw [hpl]; exact hp
                        have hmem := mem_sizeOf_lt pkvs p hp
                        have hal := alGet_sizeOf_lt kvs (ofString ("properties"))
                          (JVal.obj pkvs) hpr
                        have hpv : sizeOf (JVal.obj pkvs) = 1 + sizeOf pkvs := by simp
                        exact ih_props p hp2 m (by omega)
                      obtain ⟨out, hout⟩ := mapM_sample_ok spec m pkvs hcall
                      refine ⟨.obj out, ?_⟩
                      rw [hgd]
                      show (pkvs.mapM (fun p =>
                          (simple_sample_from_schema spec m p.2).map
                            (fun r => (p.1, r)))).map JVal.obj = Except.ok (JVal.obj out)
                      rw [hout]
                      rfl
                · rw [if_neg h5]
                  exact ⟨.str (ofString ("example")), rfl⟩

/-- C1 (amended): the sampler returns a value and cannot raise on well-shaped schema
    nodes — falsy nodes, and $ref-free dicts whose items and properties sub-schemas
    are recursively well-shaped — provided the recursion gets enough fuel; but it is
    NOT exception-free on arbitrary mapping-shaped or malformed input: a dict with a
    non-string $ref raises AttributeError, and truthy non-dict nodes (strings, lists,
    numbers) raise TypeError or AttributeError (see the counterexample). -/
theorem sample_total_on_wellshaped (spec v : JVal) (n : Nat)
    (hwf : SWF v) (hn : sizeOf v < n) :
    ∃ r, simple_sample_from_schema spec n v = Except.ok r :=
  sampleTotalAux spec v hwf n hn

/-- C1 (witness): a well-shaped string schema samples to a value. -/
theorem sample_total_on_wellshaped_witness :
    ∃ r, simple_sample_from_schema (JVal.obj []) 10000
      (JVal.obj [(ofString ("type"), JVal.str (ofString ("string")))]) = Except.ok r :=
  sample_total_on_wellshaped (JVal.obj [])
    (JVal.obj [(ofString ("type"), JVal.str (ofString ("string")))]) 10000
    (SWF.of_dict _ rfl (fun it h => Option.noConfusion h) rfl
      (fun p hp => absurd hp (List.not_mem_nil p)))
    (by decide)

/-- C1 (counterexample): simple_sample_from_schema raises on malformed input instead
    of degrading to a literal — a mapping with a non-string $ref value reaches
    ref.lstrip and raises AttributeError; a truthy number is unhashable-membership
    TypeError territory; a truthy list containing the string "$ref" is indexed like a
    dict and raises TypeError; a plain truthy string reaches .get and raises
    AttributeError. -/
theorem sample_raises_on_malformed :
    simple_sample_from_schema (JVal.obj []) 10
      (JVal.obj [(ofString ("$ref"), JVal.int 5)]) = Except.error PyErr.attrErr ∧
    simple_sample_from_schema (JVal.obj []) 10 (JVal.int 5) = Except.error PyErr.typeErr ∧
    simple_sample_from_schema (JVal.obj []) 10
      (JVal.arr [JVal.str (ofString ("$ref"))]) = Except.error PyErr.typeErr ∧
    simple_sample_from_schema (JVal.obj []) 10 (JVal.str (ofString ("plain"))) =
      Except.error PyErr.attrErr :=
  ⟨rfl, rfl, rfl, rfl⟩


end OTR
